import Mathlib

/-!
Verification of a static-site article search and filter engine.

The Rust sources are shallowly embedded as executable Lean definitions:

* strings are modelled either as lists of UTF-8 bytes (for the byte-level
  boundary helper of the query engine) or as lists of Unicode codepoints
  (for the tokenizer, the matching tiers and the filter engine); for valid
  UTF-8 the two views agree on substring and ordering questions;
* hash maps and hash sets are modelled as association lists and
  duplicate-free lists built with the same insertion discipline as the
  source (iteration order of the Rust containers is unspecified, and no
  theorem below depends on it);
* machine integers (usize) are modelled as Nat; the one place where the
  source can overflow or divide by zero is modelled with Option;
* library collaborators that the specification declares out of scope
  (bincode, flate2, chrono, the Unicode character tables of the Rust
  standard library) are modelled by explicit parameters or by executable
  restrictions of the corresponding tables to the character ranges that
  occur in this development; each such restriction is noted at its
  definition site.
-/

set_option autoImplicit false

namespace SiteSearch

/-! ## Byte-level string model and the UTF-8 boundary helper

Model of search/src/lib.rs find_char_boundary.  A string is a list of
bytes (each < 256).  A byte is a UTF-8 continuation byte iff its two top
bits are 10, which is what Rust's is_char_boundary tests. -/

/-- A UTF-8 continuation byte: 0x80 ≤ b < 0xC0 (top bits 10). -/
def isContByte (b : Nat) : Bool :=
  decide (128 ≤ b) && decide (b < 192)

/-- Rust str::is_char_boundary on a byte string: index 0, the length, or an
index below the length whose byte is not a continuation byte. -/
def isCharBoundary (s : List Nat) (i : Nat) : Bool :=
  i == 0 || i == s.length || (decide (i < s.length) && ! isContByte (s.getD i 0))

/-- The downward scan of find_char_boundary: decrement while not at a
boundary (index 0 is always a boundary). -/
def findPrevBoundary (s : List Nat) : Nat → Nat
  | 0 => 0
  | j + 1 => if isCharBoundary s (j + 1) then j + 1 else findPrevBoundary s j

/-- The upward scan of find_char_boundary, with explicit fuel: increment
while below the length and not at a boundary. -/
def findNextBoundaryAux (s : List Nat) : Nat → Nat → Nat
  | 0, j => j
  | fuel + 1, j =>
    if decide (j < s.length) && ! isCharBoundary s j then
      findNextBoundaryAux s fuel (j + 1)
    else j

/-- The upward scan started at i; s.length - i steps always suffice. -/
def findNextBoundary (s : List Nat) (i : Nat) : Nat :=
  findNextBoundaryAux s (s.length - i) i

/-- Model of find_char_boundary (search/src/lib.rs): empty string gives 0,
an index at or past the end gives the length, a boundary index is kept,
otherwise whichever of the two scans stops at the smaller distance wins,
with ties going to the earlier (downward) boundary. -/
def findCharBoundary (s : List Nat) (i : Nat) : Nat :=
  if s.length = 0 then 0
  else if s.length ≤ i then s.length
  else if isCharBoundary s i then i
  else
    let p := findPrevBoundary s i
    let n := findNextBoundary s i
    if i - p ≤ n - i then p else n

/-- Distance on Nat, written to be omega-friendly. -/
def bdist (a b : Nat) : Nat := (a - b) + (b - a)

theorem isCharBoundary_zero (s : List Nat) : isCharBoundary s 0 = true := by
  simp [isCharBoundary]

theorem isCharBoundary_length (s : List Nat) : isCharBoundary s s.length = true := by
  simp [isCharBoundary]

theorem isCharBoundary_le_length (s : List Nat) (i : Nat)
    (h : isCharBoundary s i = true) : i ≤ s.length := by
  simp only [isCharBoundary, Bool.or_eq_true, beq_iff_eq, Bool.and_eq_true,
    decide_eq_true_eq] at h
  rcases h with (h | h) | ⟨h, -⟩ <;> omega

theorem findPrevBoundary_le (s : List Nat) (i : Nat) : findPrevBoundary s i ≤ i := by
  induction i with
  | zero => simp [findPrevBoundary]
  | succ j ih =>
    simp only [findPrevBoundary]
    split
    · exact Nat.le_refl _
    · exact Nat.le_trans ih (Nat.le_succ j)

theorem findPrevBoundary_isBoundary (s : List Nat) (i : Nat) :
    isCharBoundary s (findPrevBoundary s i) = true := by
  induction i with
  | zero => simpa [findPrevBoundary] using isCharBoundary_zero s
  | succ j ih =>
    simp only [findPrevBoundary]
    split
    · assumption
    · exact ih

theorem findPrevBoundary_maximal (s : List Nat) (i : Nat) :
    ∀ k, findPrevBoundary s i < k → k ≤ i → isCharBoundary s k = false := by
  induction i with
  | zero => intro k h1 h2; omega
  | succ j ih =>
    intro k h1 h2
    simp only [findPrevBoundary] at h1
    by_cases hb : isCharBoundary s (j + 1) = true
    · simp [hb] at h1; omega
    · simp [hb] at h1
      rcases Nat.lt_or_ge k (j + 1) with hk | hk
      · exact ih k h1 (by omega)
      · have : k = j + 1 := by omega
        subst this
        simpa using hb

theorem findNextBoundaryAux_le (s : List Nat) (fuel j : Nat) :
    j ≤ findNextBoundaryAux s fuel j := by
  induction fuel generalizing j with
  | zero => simp [findNextBoundaryAux]
  | succ f ih =>
    simp only [findNextBoundaryAux]
    split
    · exact Nat.le_trans (Nat.le_succ j) (ih (j + 1))
    · exact Nat.le_refl _

theorem findNextBoundaryAux_isBoundary (s : List Nat) (fuel j : Nat)
    (hle : j ≤ s.length) (hfuel : s.length - j ≤ fuel) :
    isCharBoundary s (findNextBoundaryAux s fuel j) = true := by
  induction fuel generalizing j with
  | zero =>
    have : j = s.length := by omega
    subst this
    simpa [findNextBoundaryAux] using isCharBoundary_length s
  | succ f ih =>
    simp only [findNextBoundaryAux]
    split
    · rename_i h
      simp only [Bool.and_eq_true, decide_eq_true_eq] at h
      exact ih (j + 1) (by omega) (by omega)
    · rename_i h
      simp only [Bool.and_eq_true, decide_eq_true_eq, not_and, Bool.not_eq_true'] at h
      by_cases hj : j < s.length
      · simpa using h hj
      · have : j = s.length := by omega
        subst this
        simpa using isCharBoundary_length s

theorem findNextBoundaryAux_minimal (s : List Nat) (fuel j : Nat) :
    ∀ k, j ≤ k → k < findNextBoundaryAux s fuel j → isCharBoundary s k = false := by
  induction fuel generalizing j with
  | zero => intro k h1 h2; simp [findNextBoundaryAux] at h2; omega
  | succ f ih =>
    intro k h1 h2
    simp only [findNextBoundaryAux] at h2
    by_cases hg : (decide (j < s.length) && ! isCharBoundary s j) = true
    · rw [if_pos hg] at h2
      rcases Nat.eq_or_lt_of_le h1 with he | hl
      · subst he
        simp only [Bool.and_eq_true, Bool.not_eq_true'] at hg
        exact hg.2
      · exact ih (j + 1) k hl h2
    · rw [if_neg hg] at h2; omega

theorem findNextBoundary_le (s : List Nat) (i : Nat) : i ≤ findNextBoundary s i :=
  findNextBoundaryAux_le s (s.length - i) i

theorem findNextBoundary_isBoundary (s : List Nat) (i : Nat) (h : i ≤ s.length) :
    isCharBoundary s (findNextBoundary s i) = true :=
  findNextBoundaryAux_isBoundary s (s.length - i) i h (Nat.le_refl _)

theorem findNextBoundary_minimal (s : List Nat) (i : Nat) :
    ∀ k, i ≤ k → k < findNextBoundary s i → isCharBoundary s k = false :=
  findNextBoundaryAux_minimal s (s.length - i) i

theorem findCharBoundary_isBoundary (s : List Nat) (i : Nat) :
    isCharBoundary s (findCharBoundary s i) = true := by
  unfold findCharBoundary
  split
  · rename_i h
    have : s.length = 0 := h
    rw [show (0 : Nat) = s.length from this.symm]
    exact isCharBoundary_length s
  · split
    · exact isCharBoundary_length s
    · split
      · assumption
      · simp only
        split
        · exact findPrevBoundary_isBoundary s i
        · rename_i hlen hb htie
          exact findNextBoundary_isBoundary s i (by omega)

theorem findCharBoundary_nearest (s : List Nat) (i : Nat) :
    ∀ j, isCharBoundary s j = true →
      bdist (findCharBoundary s i) i ≤ bdist j i ∧
      (bdist j i = bdist (findCharBoundary s i) i → findCharBoundary s i ≤ j) := by
  intro j hj
  have hjle : j ≤ s.length := isCharBoundary_le_length s j hj
  unfold findCharBoundary
  split
  · rename_i h
    have hj0 : j = 0 := by omega
    subst hj0
    simp [bdist]
  · split
    · rename_i h0 hli
      constructor
      · simp only [bdist]; omega
      · intro he; simp only [bdist] at he; omega
    · split
      · rename_i h0 hli hb
        constructor
        · simp [bdist]
        · intro he
          simp only [bdist] at he
          omega
      · rename_i h0 hli hb
        have hilen : i < s.length := by omega
        have hple : findPrevBoundary s i ≤ i := findPrevBoundary_le s i
        have hnge : i ≤ findNextBoundary s i := findNextBoundary_le s i
        -- j on the left of i lies at or below the downward boundary,
        -- j on the right of i lies at or above the upward boundary
        have hleft : j ≤ i → j ≤ findPrevBoundary s i := by
          intro hji
          by_contra hgt
          have := findPrevBoundary_maximal s i j (by omega) hji
          rw [hj] at this
          simp at this
        have hright : i ≤ j → findNextBoundary s i ≤ j := by
          intro hij
          by_contra hlt
          have := findNextBoundary_minimal s i j hij (by omega)
          rw [hj] at this
          simp at this
        have hbi : ¬ (i = 0) := by
          intro h; rw [h] at hb; rw [isCharBoundary_zero s] at hb; simp at hb
        simp only
        split
        · rename_i htie
          rcases Nat.le_total j i with hji | hij
          · have := hleft hji
            constructor
            · simp only [bdist]; omega
            · intro he; simp only [bdist] at he; omega
          · have := hright hij
            constructor
            · simp only [bdist]; omega
            · intro he; simp only [bdist] at he; omega
        · rename_i htie
          rcases Nat.le_total j i with hji | hij
          · have := hleft hji
            constructor
            · simp only [bdist]; omega
            · intro he; simp only [bdist] at he; omega
          · have := hright hij
            constructor
            · simp only [bdist]; omega
            · intro he; simp only [bdist] at he; omega

/-! ## Codepoint-level string model

For the tokenizer, the matching tiers and the filter engine, a string is a
list of Unicode codepoints (Nat).  For valid UTF-8 the byte-level substring
and ordering relations used by the source coincide with the codepoint-level
ones, because a valid UTF-8 needle can only occur at character boundaries
and UTF-8 preserves codepoint order. -/

/-- A string as a list of codepoints. -/
abbrev Str : Type := List Nat

/-- Number of bytes of the UTF-8 encoding of one codepoint. -/
def utf8CharLen (c : Nat) : Nat :=
  if c < 128 then 1 else if c < 2048 then 2 else if c < 65536 then 3 else 4

/-- Rust's str::len: number of bytes of the UTF-8 encoding. -/
def utf8Len (s : Str) : Nat :=
  (List.map utf8CharLen s).sum

/-- ASCII lowercasing of one codepoint.  Restriction of char::to_lowercase
to characters without case mappings outside ASCII: identity on everything
but A-Z.  Faithful for ASCII, CJK and the punctuation used below. -/
def lowerChar (c : Nat) : Nat :=
  if 65 ≤ c ∧ c ≤ 90 then c + 32 else c

/-- Model of str::to_lowercase under the restriction above. -/
def toLower (s : Str) : Str := List.map lowerChar s

/-- Rust char::is_whitespace, restricted to ASCII whitespace and the
ideographic space U+3000 (the only whitespace codepoints this development
uses). -/
def isWhitespaceChar (c : Nat) : Bool :=
  c == 9 || c == 10 || c == 11 || c == 12 || c == 13 || c == 32 || c == 12288

/-- Rust char::is_ascii_punctuation: the four ASCII punctuation ranges. -/
def isAsciiPunct (c : Nat) : Bool :=
  (decide (33 ≤ c) && decide (c ≤ 47)) || (decide (58 ≤ c) && decide (c ≤ 64)) ||
  (decide (91 ≤ c) && decide (c ≤ 96)) || (decide (123 ≤ c) && decide (c ≤ 126))

/-- Rust char::is_ascii_digit. -/
def isAsciiDigit (c : Nat) : Bool :=
  decide (48 ≤ c) && decide (c ≤ 57)

/-- Rust char::is_alphanumeric (Unicode Alphabetic or Number), restricted
to the ranges occurring in this development: ASCII letters and digits, the
CJK Unified Ideographs block U+4E00..U+9FFF, and hiragana/katakana
U+3040..U+30FF.  Note that CJK ideographs ARE alphanumeric for Rust. -/
def isAlphanumericChar (c : Nat) : Bool :=
  isAsciiDigit c || (decide (65 ≤ c) && decide (c ≤ 90)) ||
  (decide (97 ≤ c) && decide (c ≤ 122)) ||
  (decide (19968 ≤ c) && decide (c ≤ 40959)) ||
  (decide (12352 ≤ c) && decide (c ≤ 12543))

/-- Rust str::trim (both ends, Unicode whitespace). -/
def strTrim (s : Str) : Str :=
  (List.dropWhile (fun c => isWhitespaceChar c)
    ((List.dropWhile (fun c => isWhitespaceChar c) s.reverse).reverse))

/-- Rust str::starts_with for string patterns. -/
def strStartsWith (s pat : Str) : Bool :=
  List.isPrefixOf pat s

/-- Rust str::contains for string patterns: some suffix of s starts with
pat (this includes the empty pattern). -/
def strContains : Str → Str → Bool
  | s, pat =>
    if List.isPrefixOf pat s then true
    else
      match s with
      | [] => false
      | _ :: t => strContains t pat

/-- Codepoint index of the first occurrence of pat in s (Rust str::find
returns the corresponding byte offset; see strFindByte). -/
def strFindChar : Str → Str → Option Nat
  | s, pat =>
    if List.isPrefixOf pat s then some 0
    else
      match s with
      | [] => none
      | _ :: t => (strFindChar t pat).map (· + 1)

/-- Rust str::find: byte offset of the first occurrence. -/
def strFindByte (s pat : Str) : Option Nat :=
  (strFindChar s pat).map (fun k => utf8Len (s.take k))

/-- Rust str::split_whitespace. -/
def splitWhitespaceAux : Str → Str → List Str
  | [], acc => if acc = ([] : Str) then [] else [acc.reverse]
  | c :: rest, acc =>
    if isWhitespaceChar c then
      if acc = ([] : Str) then splitWhitespaceAux rest []
      else acc.reverse :: splitWhitespaceAux rest []
    else splitWhitespaceAux rest (c :: acc)

def splitWhitespace (s : Str) : List Str := splitWhitespaceAux s []

/-- Rust str::split on one separator codepoint. -/
def strSplitOn (sep : Nat) : Str → List Str
  | [] => [[]]
  | c :: rest =>
    if c = sep then [] :: strSplitOn sep rest
    else
      match strSplitOn sep rest with
      | [] => [[c]]
      | h :: t => (c :: h) :: t

/-- Rust str::trim_matches with a character predicate (trim both ends). -/
def trimMatches (p : Nat → Bool) (s : Str) : Str :=
  (List.dropWhile p ((List.dropWhile p s.reverse).reverse))

/-- Decimal digits of a natural number, as codepoints (fuel-structured so
that it evaluates by kernel reduction). -/
def natDigitsAux : Nat → Nat → Str
  | 0, _ => []
  | fuel + 1, n =>
    if n < 10 then [48 + n]
    else natDigitsAux fuel (n / 10) ++ [48 + n % 10]

/-- Decimal representation of a Nat, as a codepoint string. -/
def natRepr (n : Nat) : Str := natDigitsAux (n + 1) n

/-- Rust str::parse::<usize>: optional leading plus sign, then one or more
ASCII digits. -/
def parseUsizeDigits : Str → Option Nat → Option Nat
  | [], acc => acc
  | c :: rest, acc =>
    if isAsciiDigit c then
      parseUsizeDigits rest (some ((acc.getD 0) * 10 + (c - 48)))
    else none

def parseUsize (s : Str) : Option Nat :=
  match s with
  | [] => none
  | 43 :: rest => if rest = ([] : Str) then none else parseUsizeDigits rest none
  | _ => parseUsizeDigits s none

/-- Stable insertion into a list that is sorted descending by key: the new
element goes after all elements whose key is at least as large.  Folding
this over a list from the left is a stable descending sort, matching the
stable sort_by of the source. -/
def insertDescBy {α : Type} (key : α → Nat) (x : α) : List α → List α
  | [] => [x]
  | y :: ys => if key x ≤ key y then y :: insertDescBy key x ys else x :: y :: ys

/-- Stable sort, descending by key (models Vec::sort_by with b.cmp(a)). -/
def sortDescBy {α : Type} (key : α → Nat) (l : List α) : List α :=
  List.foldl (fun acc x => insertDescBy key x acc) [] l

theorem insertDescBy_perm {α : Type} (key : α → Nat) (x : α) (l : List α) :
    List.Perm (insertDescBy key x l) (x :: l) := by
  induction l with
  | nil => simp [insertDescBy]
  | cons y ys ih =>
    simp only [insertDescBy]
    split
    · exact List.Perm.trans (List.Perm.cons y ih) (List.Perm.swap x y ys)
    · exact List.Perm.refl _

theorem sortDescBy_perm {α : Type} (key : α → Nat) (l : List α) :
    List.Perm (sortDescBy key l) l := by
  suffices h : ∀ acc : List α,
      List.Perm (List.foldl (fun acc x => insertDescBy key x acc) acc l) (acc ++ l) by
    simpa using h []
  induction l with
  | nil => intro acc; simp
  | cons y ys ih =>
    intro acc
    simp only [List.foldl_cons]
    refine List.Perm.trans (ih (insertDescBy key y acc)) ?_
    have h1 : List.Perm (insertDescBy key y acc ++ ys) ((y :: acc) ++ ys) :=
      List.Perm.append_right ys (insertDescBy_perm key y acc)
    refine List.Perm.trans h1 ?_
    simp only [List.cons_append]
    exact (List.perm_middle).symm

theorem insertDescBy_sorted {α : Type} (key : α → Nat) (x : α) (l : List α)
    (h : List.Pairwise (fun a b => key b ≤ key a) l) :
    List.Pairwise (fun a b => key b ≤ key a) (insertDescBy key x l) := by
  induction l with
  | nil => simp [insertDescBy]
  | cons y ys ih =>
    simp only [insertDescBy]
    rcases List.pairwise_cons.mp h with ⟨hy, hys⟩
    split
    · rename_i hle
      refine List.pairwise_cons.mpr ⟨?_, ih hys⟩
      intro b hb
      have hm := (insertDescBy_perm key x ys).mem_iff.mp hb
      rcases List.mem_cons.mp hm with hb2 | hb2
      · subst hb2; exact hle
      · exact hy b hb2
    · rename_i hgt
      refine List.pairwise_cons.mpr ⟨?_, h⟩
      intro b hb
      rcases List.mem_cons.mp hb with hb2 | hb2
      · subst hb2; omega
      · exact Nat.le_trans
          (List.rel_of_pairwise_cons h hb2) (by omega)

theorem sortDescBy_sorted {α : Type} (key : α → Nat) (l : List α) :
    List.Pairwise (fun a b => key b ≤ key a) (sortDescBy key l) := by
  suffices h : ∀ acc : List α, List.Pairwise (fun a b => key b ≤ key a) acc →
      List.Pairwise (fun a b => key b ≤ key a)
        (List.foldl (fun acc x => insertDescBy key x acc) acc l) by
    exact h [] (List.Pairwise.nil)
  induction l with
  | nil => intro acc h; simpa using h
  | cons y ys ih =>
    intro acc h
    exact ih (insertDescBy key y acc) (insertDescBy_sorted key y acc h)

/-- Stable insertion sort with a keep-before predicate: an earlier element
y stays before the inserted x exactly when keep y x (models the stable
Vec::sort_by with a comparator that is not Greater on (y, x)). -/
def insertKeep {α : Type} (keep : α → α → Bool) (x : α) : List α → List α
  | [] => [x]
  | y :: ys => if keep y x then y :: insertKeep keep x ys else x :: y :: ys

def sortKeep {α : Type} (keep : α → α → Bool) (l : List α) : List α :=
  List.foldl (fun acc x => insertKeep keep x acc) [] l

/-- Codepoint-lexicographic comparison (Rust String Ord agrees with it on
valid UTF-8). -/
def lexLeStr : Str → Str → Bool
  | [], _ => true
  | _ :: _, [] => false
  | a :: as_, b :: bs =>
    if a < b then true else if b < a then false else lexLeStr as_ bs

/-- Stable ascending insertion sort by key (models sort_by with
a.cmp(b)). -/
def insertAscBy {α : Type} (key : α → Nat) (x : α) : List α → List α
  | [] => [x]
  | y :: ys => if key y ≤ key x then y :: insertAscBy key x ys else x :: y :: ys

def sortAscBy {α : Type} (key : α → Nat) (l : List α) : List α :=
  List.foldl (fun acc x => insertAscBy key x acc) [] l

/-- Association-list lookup (models HashMap::get). -/
def alGet {β : Type} (m : List (Str × β)) (k : Str) : Option β :=
  match m with
  | [] => none
  | (k', v) :: rest => if k' = k then some v else alGet rest k

/-- Insert v into the duplicate-free list held at key k, creating the entry
if needed (models map.entry(k).or_insert_with(HashSet::new).insert(v)). -/
def insertUniq {α : Type} [DecidableEq α] (x : α) (l : List α) : List α :=
  if x ∈ l then l else l ++ [x]

def alInsert {α : Type} [DecidableEq α] (m : List (Str × List α)) (k : Str) (v : α) :
    List (Str × List α) :=
  match m with
  | [] => [(k, [v])]
  | (k', vs) :: rest =>
    if k' = k then (k', insertUniq v vs) :: rest else (k', vs) :: alInsert rest k v

/-- Add d to the counter held at key k, starting from 0 (models
map.entry(k).or_insert(0) += d). -/
def alAdd (m : List (Str × Nat)) (k : Str) (d : Nat) : List (Str × Nat) :=
  match m with
  | [] => [(k, d)]
  | (k', n) :: rest =>
    if k' = k then (k', n + d) :: rest else (k', n) :: alAdd rest k d

/-- Enumerate a list with indices starting at n (models
iter().enumerate()). -/
def enumFromN {α : Type} : Nat → List α → List (Nat × α)
  | _, [] => []
  | n, x :: xs => (n, x) :: enumFromN (n + 1) xs

def enumL {α : Type} (l : List α) : List (Nat × α) := enumFromN 0 l

theorem mem_enumFromN {α : Type} (l : List α) (n : Nat) :
    ∀ i a, (i, a) ∈ enumFromN n l ↔ n ≤ i ∧ l.get? (i - n) = some a := by
  induction l generalizing n with
  | nil => intro i a; simp [enumFromN]
  | cons x xs ih =>
    intro i a
    simp only [enumFromN, List.mem_cons, Prod.mk.injEq, ih]
    constructor
    · rintro (⟨h1, h2⟩ | ⟨h1, h2⟩)
      · subst h1; subst h2; simp
      · constructor
        · omega
        · have : i - n = (i - (n + 1)) + 1 := by omega
          rw [this]
          simpa using h2
    · rintro ⟨h1, h2⟩
      rcases Nat.eq_or_lt_of_le h1 with he | hl
      · subst he
        simp at h2
        exact Or.inl ⟨rfl, h2.symm⟩
      · refine Or.inr ⟨by omega, ?_⟩
        have : i - n = (i - (n + 1)) + 1 := by omega
        rw [this] at h2
        simpa using h2

theorem mem_enumL {α : Type} (l : List α) (i : Nat) (a : α) :
    (i, a) ∈ enumL l ↔ l.get? i = some a := by
  unfold enumL
  rw [mem_enumFromN]
  simp

/-! ## Search engine model (search/src/lib.rs)

Articles as the query engine sees them, with codepoint strings; the byte
view the engine slices is utf8Encode of them.  The date and tags fields
(never read by the engine) are omitted. -/

structure SArticle where
  id : Str
  title : Str
  content : Str
  summary : Str
  url : Str
  page_type : Str
  deriving DecidableEq

/-- A heading index entry (models HeadingIndexEntry of search/src/models.rs,
shared by the builder and the query engine); positions are byte offsets
into the article content. -/
structure HeadingIndexEntryM where
  id : Str
  level : Nat
  text : Str
  start_position : Nat
  end_position : Nat
  parent_id : Option Str
  children_ids : List Str
  deriving DecidableEq

/-- The loaded search index (models ArticleSearchIndex); the hash maps are
association lists, the hash sets duplicate-free lists. -/
structure SearchIndexM where
  articles : List SArticle
  title_term_index : List (Str × List Nat)
  heading_index : List (Str × HeadingIndexEntryM)
  heading_term_index : List (Str × List Str)
  content_term_index : List (Str × List Nat)
  common_terms : List (Str × Nat)

/-- Model of extract_article_id_from_heading: the text before the first
colon, parsed as usize. -/
def extractArticleIdFromHeading (headingId : Str) : Option Nat :=
  match strFindChar headingId [58] with
  | none => none
  | some colonPos => parseUsize (headingId.take colonPos)

/-- Model of split_query_to_terms: the trimmed, lowercased query as the
single term, or no terms when that is empty. -/
def splitQueryToTerms (query : Str) : List Str :=
  let cleanQuery := toLower (strTrim query)
  if cleanQuery = ([] : Str) then [] else [cleanQuery]

/-- One pass of find_matched_articles over the enumerated article list:
push (ordinal, score) and mark the ordinal seen whenever the condition
holds and the ordinal is not yet seen.  Instantiated by tiers 1, 2 and 3
(tier 1 runs with an empty seen set, so its absent seen check in the
source is equivalent). -/
def tierScanArticles (cond : SArticle → Bool) (score : Nat) :
    List (Nat × SArticle) → List (Nat × Nat) × List Nat → List (Nat × Nat) × List Nat
  | [], acc => acc
  | (i, a) :: rest, acc =>
    if i ∈ acc.2 then tierScanArticles cond score rest acc
    else if cond a then
      tierScanArticles cond score rest (acc.1 ++ [(i, score)], i :: acc.2)
    else tierScanArticles cond score rest acc

/-- One pass of find_matched_articles over a posting list: push
(ordinal, score) for each ordinal that is admitted and not yet seen.
Tier 4 admits every ordinal, tiers 5 and 6 accept ordinals below the
article count (tier 5 first extracts the ordinal from each heading id and
skips ids that do not parse). -/
def tierScanIds (accept : Nat → Bool) (score : Nat) :
    List Nat → List (Nat × Nat) × List Nat → List (Nat × Nat) × List Nat
  | [], acc => acc
  | i :: rest, acc =>
    if i ∈ acc.2 || ! accept i then tierScanIds accept score rest acc
    else tierScanIds accept score rest (acc.1 ++ [(i, score)], i :: acc.2)

/-- An index tier of find_matched_articles: look the query up in the given
term index and scan the posting list if present. -/
def tierIndexLookup (m : Option (List Nat)) (accept : Nat → Bool) (score : Nat)
    (acc : List (Nat × Nat) × List Nat) : List (Nat × Nat) × List Nat :=
  match m with
  | none => acc
  | some ids => tierScanIds accept score ids acc

/-- Tier 1 of find_matched_articles: title starts with the query and is
not equal to it, score 115. -/
def fmaAcc1 (idx : SearchIndexM) (query : Str) : List (Nat × Nat) × List Nat :=
  tierScanArticles
    (fun a => strStartsWith (toLower a.title) query && ! (toLower a.title == query))
    115 (enumL idx.articles) ([], [])

/-- Tier 2: title contains the query, score 99. -/
def fmaAcc2 (idx : SearchIndexM) (query : Str) : List (Nat × Nat) × List Nat :=
  tierScanArticles (fun a => strContains (toLower a.title) query) 99
    (enumL idx.articles) (fmaAcc1 idx query)

/-- Tier 3: title equals the query, score 90. -/
def fmaAcc3 (idx : SearchIndexM) (query : Str) : List (Nat × Nat) × List Nat :=
  tierScanArticles (fun a => toLower a.title == query) 90
    (enumL idx.articles) (fmaAcc2 idx query)

/-- Tier 4: title term index, score 85 (no bounds check in the source). -/
def fmaAcc4 (idx : SearchIndexM) (query : Str) : List (Nat × Nat) × List Nat :=
  tierIndexLookup (alGet idx.title_term_index query) (fun _ => true) 85
    (fmaAcc3 idx query)

/-- Tier 5: heading term index, score 80; each heading id is parsed for
the ordinal before the colon, unparsable ids are skipped, and ordinals at
or past the article count are skipped. -/
def fmaAcc5 (idx : SearchIndexM) (query : Str) : List (Nat × Nat) × List Nat :=
  tierIndexLookup
    ((alGet idx.heading_term_index query).map
      (fun hids => hids.filterMap extractArticleIdFromHeading))
    (fun i => decide (i < idx.articles.length)) 80 (fmaAcc4 idx query)

/-- Tier 6: content term index, score 75, with bounds check. -/
def fmaAcc6 (idx : SearchIndexM) (query : Str) : List (Nat × Nat) × List Nat :=
  tierIndexLookup (alGet idx.content_term_index query)
    (fun i => decide (i < idx.articles.length)) 75 (fmaAcc5 idx query)

/-- Tier 7 (only when tiers 1-6 produced nothing): content contains the
query, score 50, no seen bookkeeping. -/
def fmaTier7 (idx : SearchIndexM) (query : Str) : List (Nat × Nat) :=
  (enumL idx.articles).filterMap (fun p =>
    if strContains (toLower p.2.content) query then some (p.1, 50) else none)

/-- Model of find_matched_articles: the seven ordered matching tiers, then
a stable sort by score descending. -/
def findMatchedArticles (idx : SearchIndexM) (terms : List Str) : List (Nat × Nat) :=
  match terms with
  | [] => []
  | t0 :: _ =>
    let query := toLower t0
    let result := if (fmaAcc6 idx query).1 = [] then fmaTier7 idx query
      else (fmaAcc6 idx query).1
    sortDescBy (fun p => p.2) result

theorem isPrefixOf_self (s : Str) : List.isPrefixOf s s = true := by
  induction s with
  | nil => rfl
  | cons c t ih => simp [List.isPrefixOf, ih]

theorem strContains_self (s : Str) : strContains s s = true := by
  unfold strContains
  rw [if_pos (isPrefixOf_self s)]

theorem enumFromN_map_fst {α : Type} (l : List α) (n : Nat) :
    (enumFromN n l).map Prod.fst = List.range' n l.length := by
  induction l generalizing n with
  | nil => simp [enumFromN]
  | cons x xs ih => simp [enumFromN, ih, List.range']

theorem enumL_fst_nodup {α : Type} (l : List α) :
    ((enumL l).map Prod.fst).Nodup := by
  unfold enumL
  rw [enumFromN_map_fst]
  exact List.nodup_range' 0 l.length

theorem tierScanArticles_res_mono (c : SArticle → Bool) (s : Nat)
    (l : List (Nat × SArticle)) :
    ∀ acc p, p ∈ acc.1 → p ∈ (tierScanArticles c s l acc).1 := by
  induction l with
  | nil => intro acc p hp; simpa [tierScanArticles] using hp
  | cons x rest ih =>
    intro acc p hp
    obtain ⟨i, a⟩ := x
    simp only [tierScanArticles]
    split
    · exact ih acc p hp
    · split
      · exact ih _ p (by simp [hp])
      · exact ih acc p hp

theorem tierScanArticles_seen_mono (c : SArticle → Bool) (s : Nat)
    (l : List (Nat × SArticle)) :
    ∀ acc i, i ∈ acc.2 → i ∈ (tierScanArticles c s l acc).2 := by
  induction l with
  | nil => intro acc i hi; simpa [tierScanArticles] using hi
  | cons x rest ih =>
    intro acc i hi
    obtain ⟨j, a⟩ := x
    simp only [tierScanArticles]
    split
    · exact ih acc i hi
    · split
      · exact ih _ i (by simp [hi])
      · exact ih acc i hi

theorem tierScanArticles_mem_res (c : SArticle → Bool) (s : Nat)
    (l : List (Nat × SArticle)) :
    ∀ acc p, p ∈ (tierScanArticles c s l acc).1 →
      p ∈ acc.1 ∨ (p.2 = s ∧ p.1 ∉ acc.2 ∧ ∃ a, (p.1, a) ∈ l ∧ c a = true) := by
  induction l with
  | nil => intro acc p hp; left; simpa [tierScanArticles] using hp
  | cons x rest ih =>
    intro acc p hp
    obtain ⟨i, a⟩ := x
    simp only [tierScanArticles] at hp
    by_cases h1 : i ∈ acc.2
    · rw [if_pos h1] at hp
      rcases ih acc p hp with h | ⟨h2, h3, a2, h4, h5⟩
      · exact Or.inl h
      · exact Or.inr ⟨h2, h3, a2, List.mem_cons_of_mem _ h4, h5⟩
    · rw [if_neg h1] at hp
      by_cases h2 : c a = true
      · rw [if_pos h2] at hp
        rcases ih _ p hp with h | ⟨h3, h4, a2, h5, h6⟩
        · rcases List.mem_append.mp h with h | h
          · exact Or.inl h
          · simp only [List.mem_singleton] at h
            subst h
            exact Or.inr ⟨rfl, h1, a, List.mem_cons_self _ _, h2⟩
        · refine Or.inr ⟨h3, fun hm => h4 (List.mem_cons_of_mem _ hm), a2,
            List.mem_cons_of_mem _ h5, h6⟩
      · rw [if_neg h2] at hp
        rcases ih acc p hp with h | ⟨h3, h4, a2, h5, h6⟩
        · exact Or.inl h
        · exact Or.inr ⟨h3, h4, a2, List.mem_cons_of_mem _ h5, h6⟩

theorem tierScanArticles_mem_seen (c : SArticle → Bool) (s : Nat)
    (l : List (Nat × SArticle)) :
    ∀ acc i, i ∈ (tierScanArticles c s l acc).2 →
      i ∈ acc.2 ∨ ∃ a, (i, a) ∈ l ∧ c a = true := by
  induction l with
  | nil => intro acc i hi; left; simpa [tierScanArticles] using hi
  | cons x rest ih =>
    intro acc i hi
    obtain ⟨j, a⟩ := x
    simp only [tierScanArticles] at hi
    by_cases h1 : j ∈ acc.2
    · rw [if_pos h1] at hi
      rcases ih acc i hi with h | ⟨a2, h2, h3⟩
      · exact Or.inl h
      · exact Or.inr ⟨a2, List.mem_cons_of_mem _ h2, h3⟩
    · rw [if_neg h1] at hi
      by_cases h2 : c a = true
      · rw [if_pos h2] at hi
        rcases ih _ i hi with h | ⟨a2, h3, h4⟩
        · rcases List.mem_cons.mp h with h | h
          · subst h
            exact Or.inr ⟨a, List.mem_cons_self _ _, h2⟩
          · exact Or.inl h
        · exact Or.inr ⟨a2, List.mem_cons_of_mem _ h3, h4⟩
      · rw [if_neg h2] at hi
        rcases ih acc i hi with h | ⟨a2, h3, h4⟩
        · exact Or.inl h
        · exact Or.inr ⟨a2, List.mem_cons_of_mem _ h3, h4⟩

theorem tierScanArticles_cond_seen (c : SArticle → Bool) (s : Nat)
    (l : List (Nat × SArticle)) :
    ∀ acc i a, (i, a) ∈ l → c a = true → i ∈ (tierScanArticles c s l acc).2 := by
  induction l with
  | nil => intro acc i a h; simp at h
  | cons x rest ih =>
    intro acc i a hmem hc
    obtain ⟨j, b⟩ := x
    simp only [tierScanArticles]
    rcases List.mem_cons.mp hmem with he | hr
    · have hij : i = j ∧ a = b := by
        have := Prod.mk.injEq i a j b ▸ he
        exact ⟨congrArg Prod.fst he, congrArg Prod.snd he⟩
      obtain ⟨hij1, hij2⟩ := hij
      subst hij1
      subst hij2
      by_cases h1 : i ∈ acc.2
      · rw [if_pos h1]
        exact tierScanArticles_seen_mono c s rest acc i h1
      · rw [if_neg h1, if_pos hc]
        exact tierScanArticles_seen_mono c s rest _ i (by simp)
    · split
      · exact ih acc i a hr hc
      · split
        · exact ih _ i a hr hc
        · exact ih acc i a hr hc

theorem tierScanArticles_push (c : SArticle → Bool) (s : Nat)
    (l : List (Nat × SArticle)) (hnd : (l.map Prod.fst).Nodup) :
    ∀ acc i a, (i, a) ∈ l → c a = true → i ∉ acc.2 →
      (i, s) ∈ (tierScanArticles c s l acc).1 := by
  induction l with
  | nil => intro acc i a h; simp at h
  | cons x rest ih =>
    intro acc i a hmem hc hns
    obtain ⟨j, b⟩ := x
    have hnd2 : (rest.map Prod.fst).Nodup := (List.nodup_cons.mp hnd).2
    have hjn : j ∉ rest.map Prod.fst := (List.nodup_cons.mp hnd).1
    simp only [tierScanArticles]
    rcases List.mem_cons.mp hmem with he | hr
    · obtain ⟨hij1, hij2⟩ : i = j ∧ a = b :=
        ⟨congrArg Prod.fst he, congrArg Prod.snd he⟩
      subst hij1
      subst hij2
      rw [if_neg hns, if_pos hc]
      exact tierScanArticles_res_mono c s rest _ (i, s) (by simp)
    · have hij : i ≠ j := by
        intro h
        subst h
        exact hjn (List.mem_map.mpr ⟨(i, a), hr, rfl⟩)
      by_cases h1 : j ∈ acc.2
      · rw [if_pos h1]
        exact ih hnd2 acc i a hr hc hns
      · rw [if_neg h1]
        by_cases h2 : c b = true
        · rw [if_pos h2]
          refine ih hnd2 _ i a hr hc ?_
          simp only [List.mem_cons]
          rintro (h | h)
          · exact hij h
          · exact hns h
        · rw [if_neg h2]
          exact ih hnd2 acc i a hr hc hns

theorem tierScanIds_res_mono (accept : Nat → Bool) (s : Nat) (ids : List Nat) :
    ∀ acc p, p ∈ acc.1 → p ∈ (tierScanIds accept s ids acc).1 := by
  induction ids with
  | nil => intro acc p hp; simpa [tierScanIds] using hp
  | cons i rest ih =>
    intro acc p hp
    simp only [tierScanIds]
    split
    · exact ih acc p hp
    · exact ih _ p (by simp [hp])

theorem tierScanIds_seen_mono (accept : Nat → Bool) (s : Nat) (ids : List Nat) :
    ∀ acc i, i ∈ acc.2 → i ∈ (tierScanIds accept s ids acc).2 := by
  induction ids with
  | nil => intro acc i hi; simpa [tierScanIds] using hi
  | cons j rest ih =>
    intro acc i hi
    simp only [tierScanIds]
    split
    · exact ih acc i hi
    · exact ih _ i (by simp [hi])

theorem tierScanIds_mem_res (accept : Nat → Bool) (s : Nat) (ids : List Nat) :
    ∀ acc p, p ∈ (tierScanIds accept s ids acc).1 →
      p ∈ acc.1 ∨ (p.2 = s ∧ p.1 ∉ acc.2) := by
  induction ids with
  | nil => intro acc p hp; left; simpa [tierScanIds] using hp
  | cons j rest ih =>
    intro acc p hp
    simp only [tierScanIds] at hp
    by_cases h1 : (j ∈ acc.2 || ! accept j) = true
    · rw [if_pos h1] at hp
      exact ih acc p hp
    · rw [if_neg h1] at hp
      have h1' : j ∉ acc.2 := by
        intro hm
        apply h1
        simp [hm]
      rcases ih _ p hp with h | ⟨h2, h3⟩
      · rcases List.mem_append.mp h with h | h
        · exact Or.inl h
        · simp only [List.mem_singleton] at h
          subst h
          exact Or.inr ⟨rfl, h1'⟩
      · exact Or.inr ⟨h2, fun hm => h3 (List.mem_cons_of_mem _ hm)⟩

theorem tierIndexLookup_res_mono (m : Option (List Nat)) (accept : Nat → Bool)
    (s : Nat) (acc : List (Nat × Nat) × List Nat) :
    ∀ p, p ∈ acc.1 → p ∈ (tierIndexLookup m accept s acc).1 := by
  intro p hp
  cases m with
  | none => simpa [tierIndexLookup] using hp
  | some ids => exact tierScanIds_res_mono accept s ids acc p hp

theorem tierIndexLookup_seen_mono (m : Option (List Nat)) (accept : Nat → Bool)
    (s : Nat) (acc : List (Nat × Nat) × List Nat) :
    ∀ i, i ∈ acc.2 → i ∈ (tierIndexLookup m accept s acc).2 := by
  intro i hi
  cases m with
  | none => simpa [tierIndexLookup] using hi
  | some ids => exact tierScanIds_seen_mono accept s ids acc i hi

theorem tierIndexLookup_mem_res (m : Option (List Nat)) (accept : Nat → Bool)
    (s : Nat) (acc : List (Nat × Nat) × List Nat) :
    ∀ p, p ∈ (tierIndexLookup m accept s acc).1 →
      p ∈ acc.1 ∨ (p.2 = s ∧ p.1 ∉ acc.2) := by
  intro p hp
  cases m with
  | none => exact Or.inl (by simpa [tierIndexLookup] using hp)
  | some ids => exact tierScanIds_mem_res accept s ids acc p hp

/-- C1 (amended): an article whose lowercased title equals the lowercased
query is captured by tier 2 of find_matched_articles — the contains
condition holds for an equal string — and is returned with score 99; no
other score (in particular not the tier-3 score 90) is ever paired with
it.  This corrects the claim that such articles reach tier 3 with
score 90. -/
theorem c1_exact_title_scores_99 (idx : SearchIndexM) (q : Str) (i : Nat)
    (a : SArticle) (hget : idx.articles.get? i = some a)
    (htitle : toLower a.title = toLower q) :
    (i, 99) ∈ findMatchedArticles idx [q] ∧
      ∀ s, (i, s) ∈ findMatchedArticles idx [q] → s = 99 := by
  have hmem : (i, a) ∈ enumL idx.articles := (mem_enumL _ _ _).mpr hget
  have hcond1 : (strStartsWith (toLower a.title) (toLower q) &&
      ! (toLower a.title == toLower q)) = false := by
    rw [htitle]
    simp
  have hseen1 : i ∉ (fmaAcc1 idx (toLower q)).2 := by
    intro hin
    simp only [fmaAcc1] at hin
    rcases tierScanArticles_mem_seen _ _ _ _ i hin with h | ⟨a2, h2, h3⟩
    · simp at h
    · have hga2 := (mem_enumL idx.articles i a2).mp h2
      rw [hget] at hga2
      have ha2 : a2 = a := (Option.some.inj hga2).symm
      rw [ha2, hcond1] at h3
      exact Bool.false_ne_true h3
  have hcond2 : strContains (toLower a.title) (toLower q) = true := by
    rw [htitle]
    exact strContains_self (toLower q)
  have hmem2 : (i, 99) ∈ (fmaAcc2 idx (toLower q)).1 := by
    simp only [fmaAcc2]
    exact tierScanArticles_push _ 99 _ (enumL_fst_nodup _) _ i a hmem hcond2 hseen1
  have hseen2 : i ∈ (fmaAcc2 idx (toLower q)).2 := by
    simp only [fmaAcc2]
    exact tierScanArticles_cond_seen _ 99 _ _ i a hmem hcond2
  have hmem3 : (i, 99) ∈ (fmaAcc3 idx (toLower q)).1 := by
    simp only [fmaAcc3]
    exact tierScanArticles_res_mono _ _ _ _ _ hmem2
  have hseen3 : i ∈ (fmaAcc3 idx (toLower q)).2 := by
    simp only [fmaAcc3]
    exact tierScanArticles_seen_mono _ _ _ _ _ hseen2
  have hmem4 : (i, 99) ∈ (fmaAcc4 idx (toLower q)).1 := by
    simp only [fmaAcc4]
    exact tierIndexLookup_res_mono _ _ _ _ _ hmem3
  have hseen4 : i ∈ (fmaAcc4 idx (toLower q)).2 := by
    simp only [fmaAcc4]
    exact tierIndexLookup_seen_mono _ _ _ _ _ hseen3
  have hmem5 : (i, 99) ∈ (fmaAcc5 idx (toLower q)).1 := by
    simp only [fmaAcc5]
    exact tierIndexLookup_res_mono _ _ _ _ _ hmem4
  have hseen5 : i ∈ (fmaAcc5 idx (toLower q)).2 := by
    simp only [fmaAcc5]
    exact tierIndexLookup_seen_mono _ _ _ _ _ hseen4
  have hmem6 : (i, 99) ∈ (fmaAcc6 idx (toLower q)).1 := by
    simp only [fmaAcc6]
    exact tierIndexLookup_res_mono _ _ _ _ _ hmem5
  have hne : (fmaAcc6 idx (toLower q)).1 ≠ [] := List.ne_nil_of_mem hmem6
  have hresult : findMatchedArticles idx [q] =
      sortDescBy (fun p => p.2) (fmaAcc6 idx (toLower q)).1 := by
    simp only [findMatchedArticles]
    rw [if_neg hne]
  have hperm := sortDescBy_perm (fun p : Nat × Nat => p.2) (fmaAcc6 idx (toLower q)).1
  constructor
  · rw [hresult]
    exact hperm.mem_iff.mpr hmem6
  · intro s hs
    rw [hresult] at hs
    have hs6 : (i, s) ∈ (fmaAcc6 idx (toLower q)).1 := hperm.mem_iff.mp hs
    simp only [fmaAcc6] at hs6
    rcases tierIndexLookup_mem_res _ _ _ _ _ hs6 with h5 | ⟨-, hnot⟩
    swap
    · exact absurd hseen5 hnot
    simp only [fmaAcc5] at h5
    rcases tierIndexLookup_mem_res _ _ _ _ _ h5 with h4 | ⟨-, hnot⟩
    swap
    · exact absurd hseen4 hnot
    simp only [fmaAcc4] at h4
    rcases tierIndexLookup_mem_res _ _ _ _ _ h4 with h3 | ⟨-, hnot⟩
    swap
    · exact absurd hseen3 hnot
    simp only [fmaAcc3] at h3
    rcases tierScanArticles_mem_res _ _ _ _ _ h3 with h2 | ⟨-, hnot, -⟩
    swap
    · exact absurd hseen2 hnot
    simp only [fmaAcc2] at h2
    rcases tierScanArticles_mem_res _ _ _ _ _ h2 with h1 | ⟨hsc, -, -⟩
    swap
    · exact hsc
    simp only [fmaAcc1] at h1
    rcases tierScanArticles_mem_res _ _ _ _ _ h1 with h0 | ⟨-, -, a2, hm2, hcond⟩
    · simp at h0
    · exfalso
      have hga2 := (mem_enumL idx.articles i a2).mp hm2
      rw [hget] at hga2
      have ha2 : a2 = a := (Option.some.inj hga2).symm
      rw [ha2, hcond1] at hcond
      exact Bool.false_ne_true hcond

/-- Suggestion type: completion (prefix) or correction. -/
inductive SuggestionTypeM where
  | completion
  | correction
  deriving DecidableEq

/-- Internal suggestion candidate (models SuggestionCandidate). -/
structure SuggestionCandidateM where
  text : Str
  score : Nat
  stype : SuggestionTypeM
  frequency : Nat
  deriving DecidableEq

/-- Outgoing suggestion (models SearchSuggestion). -/
structure SearchSuggestionM where
  text : Str
  stype : SuggestionTypeM
  matched_text : Str
  suggestion_text : Str
  deriving DecidableEq

/-- Stable insertion for the two-key (score, then frequency, both
descending) comparator of get_search_suggestions. -/
def insertDescBy2 {α : Type} (key : α → Nat × Nat) (x : α) : List α → List α
  | [] => [x]
  | y :: ys =>
    if (key y).1 > (key x).1 ∨ ((key y).1 = (key x).1 ∧ (key y).2 ≥ (key x).2) then
      y :: insertDescBy2 key x ys
    else x :: y :: ys

def sortDescBy2 {α : Type} (key : α → Nat × Nat) (l : List α) : List α :=
  List.foldl (fun acc x => insertDescBy2 key x acc) [] l

/-- Levenshtein distance, new row given the previous row, the current
character of s1, and the value to the left (standard DP recurrence of
levenshtein_distance in the source). -/
def levNewRow (c1 : Nat) : List Nat → Str → Nat → List Nat
  | d :: prevRest, c2 :: cs, left =>
    let up := prevRest.headD 0
    let cost := if c1 = c2 then 0 else 1
    let v := min (min (up + 1) (left + 1)) (d + cost)
    v :: levNewRow c1 (prevRest) cs v
  | _, _, _ => []

def levRows (s2 : Str) : List (Nat × Nat) → List Nat → List Nat
  | [], row => row
  | (i, c1) :: rest, row => levRows s2 rest ((i + 1) :: levNewRow c1 row s2 (i + 1))

/-- Model of levenshtein_distance (character-level DP). -/
def levenshteinDistance (s1 s2 : Str) : Nat :=
  if s1.length = 0 then s2.length
  else if s2.length = 0 then s1.length
  else (levRows s2 (enumL s1) (List.range (s2.length + 1))).getLastD 0

/-- Stage 1 of get_search_suggestions: title candidates. -/
def suggestTitleCandidates (articles : List SArticle) (query : Str) :
    List SuggestionCandidateM :=
  articles.filterMap (fun article =>
    let titleLower := toLower article.title
    if titleLower = query then none
    else if strStartsWith titleLower query then
      some ⟨article.title, 100, SuggestionTypeM.completion, 100⟩
    else if strContains titleLower query then
      some ⟨article.title, 90, SuggestionTypeM.correction, 90⟩
    else none)

/-- Stage 2 of get_search_suggestions: common-term candidates. -/
def suggestTermCandidates (commonTerms : List (Str × Nat)) (query : Str) :
    List SuggestionCandidateM :=
  commonTerms.filterMap (fun p =>
    let termLower := toLower p.1
    if termLower = query then none
    else if strStartsWith termLower query then
      some ⟨p.1, 95, SuggestionTypeM.completion, p.2⟩
    else if strContains termLower query then
      some ⟨p.1, 85, SuggestionTypeM.correction, p.2⟩
    else none)

/-- Stage 3 of get_search_suggestions: edit-distance candidates, pushed
while iterating (the duplicate check sees candidates added earlier in the
same loop). -/
def suggestEditCandidates (query : Str) :
    List (Str × Nat) → List SuggestionCandidateM → List SuggestionCandidateM
  | [], acc => acc
  | (term, freq) :: rest, acc =>
    let termLower := toLower term
    if termLower = query ∨ acc.any (fun s => toLower s.text == termLower) then
      suggestEditCandidates query rest acc
    else
      let distance := levenshteinDistance query termLower
      let maxAllowed := min (utf8Len query) 3
      if distance ≤ maxAllowed then
        suggestEditCandidates query rest
          (acc ++ [⟨term, 80 - distance * 5, SuggestionTypeM.correction, freq⟩])
      else suggestEditCandidates query rest acc

/-- Model of get_search_suggestions. -/
def getSearchSuggestions (idx : SearchIndexM) (q : Str) : List SearchSuggestionM :=
  let query := toLower (strTrim q)
  if query = ([] : Str) then
    (List.take 10 (sortDescBy (fun p => p.2) idx.common_terms)).map
      (fun p => ⟨p.1, SuggestionTypeM.completion, [], p.1⟩)
  else
    let c1 := suggestTitleCandidates idx.articles query
    let c2 := c1 ++ suggestTermCandidates idx.common_terms query
    let c3 := if c2.length < 5 then suggestEditCandidates query idx.common_terms c2 else c2
    let sorted := sortDescBy2 (fun c => (c.score, c.frequency)) c3
    (List.take 10 sorted).map (fun candidate =>
      let textLower := toLower candidate.text
      if candidate.stype = SuggestionTypeM.completion ∧ strStartsWith textLower query then
        ⟨candidate.text, candidate.stype, candidate.text.take query.length,
          candidate.text.drop query.length⟩
      else ⟨candidate.text, candidate.stype, query, candidate.text⟩)

/-- Incoming search request (models SearchRequest after JSON parsing). -/
structure SearchRequestM where
  query : Str
  search_type : Str
  page : Nat
  page_size : Nat

/-! ## Byte bridge between the codepoint model and Rust's byte slicing

perform_search's payload assembly (highlight_title,
build_heading_tree_with_matches, find_matches_in_paragraph,
format_matched_content) slices strings at BYTE offsets.  The articles of
the model carry codepoint strings, so here they are encoded to UTF-8 byte
lists and every Rust slice s[a..b] becomes sliceB, which is none — the
model of a Rust panic — when an end is out of range or not a character
boundary. -/

/-- UTF-8 encoding of one codepoint (1 to 4 bytes). -/
def utf8EncodeChar (c : Nat) : List Nat :=
  if c < 128 then [c]
  else if c < 2048 then [192 + c / 64, 128 + c % 64]
  else if c < 65536 then [224 + c / 4096, 128 + (c / 64) % 64, 128 + c % 64]
  else [240 + c / 262144, 128 + (c / 4096) % 64, 128 + (c / 64) % 64, 128 + c % 64]

/-- UTF-8 encoding of a codepoint string as Rust stores it. -/
def utf8Encode (s : Str) : List Nat :=
  (s.map utf8EncodeChar).flatten

/-- UTF-8 decoding back to codepoints.  It is only ever applied to valid
encodings (utf8Encode images and their boundary-aligned slices), so the
fallback clauses for truncated sequences are never reached. -/
def utf8Decode : List Nat → List Nat
  | [] => []
  | b :: rest =>
    if b < 128 then b :: utf8Decode rest
    else if b < 224 then
      match rest with
      | c :: rest2 => ((b % 32) * 64 + c % 64) :: utf8Decode rest2
      | [] => [b]
    else if b < 240 then
      match rest with
      | c :: d :: rest2 => ((b % 16) * 4096 + (c % 64) * 64 + d % 64) :: utf8Decode rest2
      | _ => [b]
    else
      match rest with
      | c :: d :: e :: rest2 =>
        ((b % 8) * 262144 + (c % 64) * 4096 + (d % 64) * 64 + e % 64) :: utf8Decode rest2
      | _ => [b]

/-- char::to_lowercase as a one-to-many codepoint map: the same ASCII
mapping as lowerChar, plus the one expanding case the claims exercise,
U+0130 LATIN CAPITAL LETTER I WITH DOT ABOVE, whose lowercase is the TWO
characters U+0069 followed by U+0307 — so lowercasing can change the byte
length of a string. -/
def lowerCharFull (c : Nat) : List Nat :=
  if c = 304 then [105, 775] else [lowerChar c]

/-- Rust str::to_lowercase on a UTF-8 byte string: decode, lowercase each
character (possibly into several), re-encode. -/
def toLowerBytes (s : List Nat) : List Nat :=
  utf8Encode (((utf8Decode s).map lowerCharFull).flatten)

/-- Rust byte slicing s[a..b]: defined when a ≤ b, b is in range and both
ends are character boundaries; anything else is a panic, modelled none. -/
def sliceB (s : List Nat) (a b : Nat) : Option (List Nat) :=
  if a ≤ b ∧ b ≤ s.length ∧ isCharBoundary s a = true ∧ isCharBoundary s b = true then
    some ((s.drop a).take (b - a))
  else none

/-- First byte offset at which p occurs in the haystack, offset by i. -/
def byteFindAux (p : List Nat) : List Nat → Nat → Option Nat
  | [], i => if List.isPrefixOf p ([] : List Nat) then some i else none
  | b :: t, i => if List.isPrefixOf p (b :: t) then some i else byteFindAux p t (i + 1)

/-- Rust str::find for a string pattern on valid UTF-8: the byte offset of
the first occurrence (byte-level search; on valid UTF-8 a match always
starts at a character boundary). -/
def byteFind (p s : List Nat) : Option Nat :=
  byteFindAux p s 0

/-- Rust Vec::dedup: remove consecutive duplicates. -/
def dedupAdj {α : Type} [DecidableEq α] : List α → List α
  | [] => []
  | [a] => [a]
  | a :: b :: t => if a = b then dedupAdj (b :: t) else a :: dedupAdj (b :: t)

/-- The bytes of "<mark>". -/
def markOpen : List Nat := [60, 109, 97, 114, 107, 62]

/-- The bytes of "</mark>". -/
def markClose : List Nat := [60, 47, 109, 97, 114, 107, 62]

/-- The bytes of "...". -/
def dots : List Nat := [46, 46, 46]

/-! ## The per-item payload pipeline of perform_search
(search/src/lib.rs: find_matches_in_paragraph, format_matched_content,
highlight_title, build_heading_tree_with_matches, process_deeper_nodes) -/

/-- The match-scan loop of find_matches_in_paragraph over the LOWERCASED
content: content_lower[start_idx..] is a raw Rust slice (none when
start_idx is not a boundary of content_lower — the boundaries were snapped
against content, whose byte layout can differ after lowercasing); the
match bounds are snapped against the ORIGINAL content.  The fuel is only a
recursion bound: each pass advances start_idx by at least 1 and the loop
stops once start_idx reaches the length, so the callers' length + 1 fuel
is never exhausted. -/
def fmipLoop (content contentLower q : List Nat) :
    Nat → Nat → List (Nat × Nat × Nat) → Option (List (Nat × Nat × Nat))
  | 0, _, _ => none
  | fuel + 1, startIdx, acc =>
    if startIdx < contentLower.length then
      match sliceB contentLower startIdx contentLower.length with
      | none => none
      | some tail =>
        match byteFind q tail with
        | none => some acc.reverse
        | some foundIdx =>
          let absIdx := startIdx + foundIdx
          let matchEnd := absIdx + q.length
          let validAbs := findCharBoundary content absIdx
          let validEnd := findCharBoundary content matchEnd
          let acc2 := if validAbs < validEnd then (validAbs, validEnd, 1) :: acc else acc
          let next := if startIdx < validEnd then validEnd else startIdx + 1
          fmipLoop content contentLower q fuel next acc2
    else some acc.reverse

/-- The short-paragraph branch of format_matched_content: walk the sorted
matches, snapping every boundary against content; returns the assembled
bytes and the final last_pos. -/
def fmcShortGo (content : List Nat) :
    List (Nat × Nat × Nat) → Nat → List Nat → Option (List Nat × Nat)
  | [], lastPos, out => some (out, lastPos)
  | (start, e, _) :: rest, lastPos, out =>
    if start < content.length then
      let safeStart := findCharBoundary content start
      let safeEnd := findCharBoundary content (min e content.length)
      let safeLast := findCharBoundary content lastPos
      match (if safeLast < safeStart then sliceB content safeLast safeStart else some []),
        (if safeStart < safeEnd then sliceB content safeStart safeEnd else some []) with
      | some pre, some mid =>
        let out2 := out ++ pre ++
          (if safeStart < safeEnd then markOpen ++ mid ++ markClose else [])
        fmcShortGo content rest safeEnd out2
      | _, _ => none
    else fmcShortGo content rest lastPos out

/-- The short-paragraph branch in full: the loop above, then the tail
content[find_char_boundary(content, last_pos)..]. -/
def fmcShort (content : List Nat) (positions : List (Nat × Nat × Nat)) :
    Option (List Nat) :=
  match fmcShortGo content positions 0 [] with
  | none => none
  | some (out, lastPos) =>
    if lastPos < content.length then
      (sliceB content (findCharBoundary content lastPos) content.length).map
        (fun s => out ++ s)
    else some out

/-- The context-window loop of the long-paragraph branch: positions are
relative to the extracted context. -/
def fmcLongGo (context : List Nat) :
    List (Nat × Nat) → Nat → List Nat → Option (List Nat × Nat)
  | [], lastPos, out => some (out, lastPos)
  | (relStart, relEnd) :: rest, lastPos, out =>
    match (if lastPos < relStart ∧ relStart ≤ context.length then
        (let safeLast := findCharBoundary context lastPos
         let safeStart := findCharBoundary context relStart
         if safeLast < safeStart then sliceB context safeLast safeStart else some [])
      else some []) with
    | none => none
    | some pre =>
      if relEnd ≤ context.length then
        let safeStart := findCharBoundary context relStart
        let safeEnd := findCharBoundary context relEnd
        match (if safeStart < safeEnd then sliceB context safeStart safeEnd else some []) with
        | none => none
        | some mid =>
          let out2 := out ++ pre ++
            (if safeStart < safeEnd then markOpen ++ mid ++ markClose else [])
          fmcLongGo context rest safeEnd out2
      else fmcLongGo context rest lastPos (out ++ pre)

/-- The long-paragraph branch of format_matched_content: a 150-byte
context window around the first priority-1 match, matches re-based into
the window, ellipses for truncation on either side. -/
def fmcLong (content : List Nat) (positions : List (Nat × Nat × Nat)) :
    Option (List Nat) :=
  let first := match positions.filter (fun p => p.2.2 == 1) with
    | p :: _ => p
    | [] => positions.headD (0, 0, 0)
  let ctxStart := findCharBoundary content (if 150 < first.1 then first.1 - 150 else 0)
  let ctxEnd := findCharBoundary content (min (first.2.1 + 150) content.length)
  match sliceB content ctxStart ctxEnd with
  | none => none
  | some context =>
    let visible := (positions.filter (fun p =>
        decide (ctxStart ≤ p.1) && decide (p.2.1 ≤ ctxEnd))).map
      (fun p => (p.1 - ctxStart, p.2.1 - ctxStart))
    match fmcLongGo context visible 0 [] with
    | none => none
    | some (out, lastPos) =>
      match (if lastPos < context.length then
          (sliceB context (findCharBoundary context lastPos) context.length).map
            (fun s => out ++ s)
        else some out) with
      | none => none
      | some out2 =>
        let out3 := if 0 < ctxStart then dots ++ out2 else out2
        some (if ctxEnd < content.length then out3 ++ dots else out3)

/-- Model of format_matched_content: no matches or empty content echoes
the content; above 300 bytes the context branch, otherwise the full-text
branch; an empty assembly falls back to the first 300 bytes plus dots. -/
def formatMatchedContent (content : List Nat) (positions : List (Nat × Nat × Nat)) :
    Option (List Nat) :=
  if positions = [] ∨ content = [] then some content
  else
    match (if 300 < content.length then fmcLong content positions
           else fmcShort content positions) with
    | none => none
    | some hc =>
      if hc = [] ∧ content ≠ [] then
        (sliceB content 0 (findCharBoundary content (min content.length 300))).map
          (fun s => s ++ dots)
      else some hc

/-- Model of find_matches_in_paragraph.  contentB is the article content
as bytes.  The paragraph window starts at start_position plus the BYTE
length of the heading text plus level + 1, snapped to a boundary when in
range; its end is the end_position clamped to the length and snapped.
Outer none is a panic; inner none is the source's None return. -/
def findMatchesInParagraph (contentB : List Nat) (heading : HeadingIndexEntryM)
    (terms : List Str) : Option (Option (List Nat × List Str)) :=
  let contentStart0 := heading.start_position + utf8Len heading.text + heading.level + 1
  let contentStart := if contentStart0 < contentB.length then
      findCharBoundary contentB contentStart0
    else contentStart0
  let contentEnd1 := if contentB.length < heading.end_position then contentB.length
    else heading.end_position
  let contentEnd := findCharBoundary contentB contentEnd1
  if contentEnd ≤ contentStart ∨ contentB.length ≤ contentStart then some none
  else
    match sliceB contentB contentStart contentEnd with
    | none => none
    | some content =>
      if strTrim (utf8Decode content) = ([] : Str) then some none
      else
        match terms with
        | [] => some none
        | t0 :: _ =>
          let q := toLowerBytes (utf8Encode t0)
          let contentLower := toLowerBytes content
          match fmipLoop content contentLower q (contentLower.length + 1) 0 [] with
          | none => none
          | some positions =>
            if positions = [] then some none
            else
              let sortedPos := sortAscBy (fun p => p.1) positions
              let matchedTerms := dedupAdj (sortKeep (fun a b => lexLeStr a b)
                (positions.map (fun _ => t0)))
              match formatMatchedContent content sortedPos with
              | none => none
              | some highlighted => some (some (highlighted, matchedTerms))

/-- The match-scan loop of highlight_title: the same shape as fmipLoop
(pairs instead of triples), searching the lowercased title and snapping
against the original title bytes. -/
def hltLoop (title titleLower q : List Nat) :
    Nat → Nat → List (Nat × Nat) → Option (List (Nat × Nat))
  | 0, _, _ => none
  | fuel + 1, startIdx, acc =>
    if startIdx < titleLower.length then
      match sliceB titleLower startIdx titleLower.length with
      | none => none
      | some tail =>
        match byteFind q tail with
        | none => some acc.reverse
        | some foundIdx =>
          let absIdx := startIdx + foundIdx
          let matchEnd := absIdx + q.length
          let validAbs := findCharBoundary title absIdx
          let validEnd := findCharBoundary title matchEnd
          let acc2 := if validAbs < validEnd then (validAbs, validEnd) :: acc else acc
          let next := if startIdx < validEnd then validEnd else startIdx + 1
          hltLoop title titleLower q fuel next acc2
    else some acc.reverse

/-- The assembly loop of highlight_title over the position-sorted
matches, then the unsliced tail title[last_pos..]. -/
def hlBuild (title : List Nat) : List (Nat × Nat) → Nat → List Nat → Option (List Nat)
  | [], lastPos, out =>
    if lastPos < title.length then
      (sliceB title lastPos title.length).map (fun s => out ++ s)
    else some out
  | (start, e) :: rest, lastPos, out =>
    match (if lastPos < start then sliceB title lastPos start else some []),
      sliceB title start e with
    | some pre, some mid =>
      hlBuild title rest e (out ++ pre ++ markOpen ++ mid ++ markClose)
    | _, _ => none

/-- Model of highlight_title on bytes: empty title or query is echoed;
otherwise scan the lowercased title for the lowercased query and wrap each
match in mark tags. -/
def highlightTitle (title q : Str) : Option (List Nat) :=
  let titleB := utf8Encode title
  let qB := utf8Encode q
  if titleB = [] ∨ qB = [] then some titleB
  else
    let titleLower := toLowerBytes titleB
    let qLower := toLowerBytes qB
    match hltLoop titleB titleLower qLower (titleLower.length + 1) 0 [] with
    | none => none
    | some poss =>
      if poss = [] then some titleB
      else hlBuild titleB (sortAscBy (fun p => p.1) poss) 0 []

/-- A node of the heading tree returned in a search result item (models
HeadingNode; content is highlighted bytes). -/
inductive HeadingNodeM : Type where
  | mk (id : Str) (text : Str) (level : Nat) (content : Option (List Nat))
      (matched_terms : Option (List Str)) (children : List HeadingNodeM)

def HeadingNodeM.level : HeadingNodeM → Nat
  | .mk _ _ l _ _ _ => l

def HeadingNodeM.text : HeadingNodeM → Str
  | .mk _ t _ _ _ _ => t

/-- The (level, then text) stable order used on direct children. -/
def nodeLevelTextKeep (a b : HeadingNodeM) : Bool :=
  decide (a.level < b.level) || (a.level == b.level && lexLeStr a.text b.text)

/-- The text-only stable order used on grandchildren. -/
def nodeTextKeep (a b : HeadingNodeM) : Bool :=
  lexLeStr a.text b.text

/-- One level of process_deeper_nodes: build a node per resolvable child
id, recursing through the supplied continuation for non-leaf children. -/
def pdnStep (hm : List (Str × HeadingIndexEntryM))
    (hmatches : List (Str × (List Nat × List Str)))
    (deeper : List Str → Option (List HeadingNodeM)) :
    List Str → Option (List HeadingNodeM)
  | [] => some []
  | cid :: rest =>
    match alGet hm cid with
    | none => pdnStep hm hmatches deeper rest
    | some child =>
      match (if child.children_ids = [] then some [] else deeper child.children_ids),
        pdnStep hm hmatches deeper rest with
      | some kids, some ns =>
        some (HeadingNodeM.mk cid child.text child.level
          ((alGet hmatches cid).map Prod.fst) ((alGet hmatches cid).map Prod.snd)
          kids :: ns)
      | _, _ => none

/-- Model of process_deeper_nodes: collect this level's nodes, then sort
them by (level, text).  The fuel bounds the nesting depth: an acyclic
children graph over hm has depth at most hm.length, and a cyclic one
overflows the Rust call stack — the 0-fuel none. -/
def pdnDepth (hm : List (Str × HeadingIndexEntryM))
    (hmatches : List (Str × (List Nat × List Str))) :
    Nat → List Str → Option (List HeadingNodeM)
  | 0 => fun _ => none
  | fuel + 1 => fun ids =>
    (pdnStep hm hmatches (pdnDepth hm hmatches fuel) ids).map
      (sortKeep nodeLevelTextKeep)

/-- find_matches_in_paragraph over every heading of the article (the
heading_matches map of build_heading_tree_with_matches); a panic in any
paragraph propagates. -/
def bhMatches (contentB : List Nat) (terms : List Str) :
    List (Str × HeadingIndexEntryM) → Option (List (Str × (List Nat × List Str)))
  | [] => some []
  | (hid, h) :: rest =>
    match findMatchesInParagraph contentB h terms, bhMatches contentB terms rest with
    | none, _ => none
    | some none, r => r
    | some (some _), none => none
    | some (some pr), some l => some ((hid, pr) :: l)

/-- The grandchild loop of build_heading_tree_with_matches: one node per
resolvable grandchild id, deeper levels through process_deeper_nodes. -/
def bhGrand (hm : List (Str × HeadingIndexEntryM))
    (hmatches : List (Str × (List Nat × List Str))) :
    List Str → Option (List HeadingNodeM)
  | [] => some []
  | gid :: rest =>
    match alGet hm gid with
    | none => bhGrand hm hmatches rest
    | some g =>
      match (if g.children_ids = [] then some []
             else pdnDepth hm hmatches hm.length g.children_ids),
        bhGrand hm hmatches rest with
      | some kids, some ns =>
        some (HeadingNodeM.mk gid g.text g.level
          ((alGet hmatches gid).map Prod.fst) ((alGet hmatches gid).map Prod.snd)
          kids :: ns)
      | _, _ => none

/-- The direct-children loop of build_heading_tree_with_matches: one node
per resolvable root-child id, its children the text-sorted grandchild
nodes. -/
def bhChildren (hm : List (Str × HeadingIndexEntryM))
    (hmatches : List (Str × (List Nat × List Str))) :
    List Str → Option (List HeadingNodeM)
  | [] => some []
  | cid :: rest =>
    match alGet hm cid with
    | none => bhChildren hm hmatches rest
    | some h =>
      match (if h.children_ids = [] then some []
             else (bhGrand hm hmatches h.children_ids).map (sortKeep nodeTextKeep)),
        bhChildren hm hmatches rest with
      | some kids, some ns =>
        some (HeadingNodeM.mk cid h.text h.level
          ((alGet hmatches cid).map Prod.fst) ((alGet hmatches cid).map Prod.snd)
          kids :: ns)
      | _, _ => none

/-- The ":root" id tail. -/
def rootSuffix : Str := [58, 114, 111, 111, 116]

/-- Model of build_heading_tree_with_matches.  The article's headings are
the heading_index entries whose key starts with "article.id:"; with none,
a synthetic root covering the whole content is scanned; otherwise a root
node over the start-sorted parentless headings, its children and
grandchildren filled from the per-heading matches.  Outer none is a panic
(the paragraph scans slice lowercased content at positions snapped against
the original bytes). -/
def buildHeadingTreeWithMatches (article : SArticle) (terms : List Str)
    (idx : SearchIndexM) : Option (Option HeadingNodeM) :=
  if terms = [] ∨ article.content = [] then some none
  else
    let contentB := utf8Encode article.content
    let hm := idx.heading_index.filter (fun p => strStartsWith p.1 (article.id ++ [58]))
    if hm = [] then
      let rootHeading : HeadingIndexEntryM :=
        ⟨article.id ++ rootSuffix, 0, article.title, 0, contentB.length, none, []⟩
      match findMatchesInParagraph contentB rootHeading terms with
      | none => none
      | some none => some none
      | some (some (hc, mts)) =>
        some (some (HeadingNodeM.mk rootHeading.id rootHeading.text rootHeading.level
          (some hc) (some mts) []))
    else
      let roots0 := (hm.map Prod.snd).filter (fun h => h.parent_id.isNone)
      if roots0 = [] then some none
      else
        let roots := sortAscBy (fun h => h.start_position) roots0
        let rootHeading : HeadingIndexEntryM :=
          ⟨article.id ++ rootSuffix, 0, article.title, 0, contentB.length, none,
            roots.map (fun h => h.id)⟩
        match bhMatches contentB terms hm with
        | none => none
        | some hmatches =>
          match findMatchesInParagraph contentB rootHeading terms with
          | none => none
          | some rootContent =>
            match bhChildren hm hmatches rootHeading.children_ids with
            | none => none
            | some kids =>
              some (some (HeadingNodeM.mk rootHeading.id rootHeading.text
                rootHeading.level (rootContent.map Prod.fst)
                (rootContent.map Prod.snd) (sortKeep nodeLevelTextKeep kids)))

/-- One search result item (models SearchResultItem; the highlighted title
and heading-tree contents are byte strings). -/
structure SearchResultItemM where
  id : Str
  title : List Nat
  summary : Str
  url : Str
  score : Nat
  heading_tree : Option HeadingNodeM
  page_type : Str

/-- The result envelope (models SearchResult without time_ms, which is
wall-clock timing filled by the host binding). -/
structure SearchResultM where
  items : List SearchResultItemM
  total : Nat
  page : Nat
  page_size : Nat
  total_pages : Nat
  query : Str
  suggestions : List SearchSuggestionM

/-- Model of perform_autocomplete: an empty query short-circuits with no
suggestions; otherwise suggestions are generated. -/
def performAutocomplete (idx : SearchIndexM) (req : SearchRequestM) : SearchResultM :=
  let query := toLower req.query
  if query = ([] : Str) then
    ⟨[], 0, 1, 10, 0, query, []⟩
  else
    let suggestions := getSearchSuggestions idx query
    ⟨[], suggestions.length, 1, suggestions.length, 1, query, suggestions⟩

/-- The per-article item loop of perform_search: ordinals at or past the
article count are skipped; for the rest the heading tree and the
highlighted title are assembled (none — a panic in either — propagates). -/
def assembleItems (idx : SearchIndexM) (terms : List Str) :
    List (Nat × Nat) → Option (List SearchResultItemM)
  | [] => some []
  | (aid, score) :: rest =>
    match idx.articles.get? aid with
    | none => assembleItems idx terms rest
    | some article =>
      match buildHeadingTreeWithMatches article terms idx,
        (match terms with
         | [] => some (utf8Encode article.title)
         | t0 :: _ => highlightTitle article.title t0),
        assembleItems idx terms rest with
      | some ht, some hti, some l =>
        some (⟨article.id, hti, article.summary, article.url, score, ht,
          article.page_type⟩ :: l)
      | _, _, _ => none

/-- Model of perform_search.  none models a panic: either inside the
per-item payload assembly (assembleItems), or the total_pages division by
zero when page_size = 0. -/
def performSearch (idx : SearchIndexM) (req : SearchRequestM) : Option SearchResultM :=
  let query := toLower req.query
  if query = ([] : Str) then
    some ⟨[], 0, req.page, req.page_size, 0, query, []⟩
  else
    let terms := splitQueryToTerms query
    if terms = [] then
      some ⟨[], 0, req.page, req.page_size, 0, query, []⟩
    else
      let matchedArticles := findMatchedArticles idx terms
      match assembleItems idx terms matchedArticles with
      | none => none
      | some allItems =>
        let total := allItems.length
        if req.page_size = 0 then none
        else
          let totalPages := (total + req.page_size - 1) / req.page_size
          let startIdx := (req.page - 1) * req.page_size
          let endIdx := min (startIdx + req.page_size) total
          let pagedResults := if startIdx < total then
              (allItems.drop startIdx).take (endIdx - startIdx)
            else []
          some ⟨pagedResults, total, req.page, req.page_size, totalPages, query,
            getSearchSuggestions idx query⟩

/-! ## Extractor heading positions (article-indexer/src/main.rs)

Model of the position-computation loop at the end of extract_headings.
Headings are collected with position 0 and no end position; the loop then
looks up each heading text in the lowercased content and, crucially, reads
the NEXT heading's position from the current (still unprocessed) state. -/

structure HeadingM where
  level : Nat
  text : Str
  position : Nat
  end_position : Option Nat
  deriving DecidableEq

/-- One iteration of the loop body in extract_headings for index i:
if the lowercased heading text occurs in the lowercased content, set the
position to the byte offset of the first occurrence and the end position
to the next heading's current position (or the content byte length for the
last heading). -/
def chpStep (contentLower : Str) (contentLen : Nat) (hs : List HeadingM) (i : Nat) :
    List HeadingM :=
  match hs.get? i with
  | none => hs
  | some h =>
    match strFindByte contentLower (toLower h.text) with
    | none => hs
    | some pos =>
      let endPos := if i < hs.length - 1 then
          match hs.get? (i + 1) with
          | some hn => some hn.position
          | none => none
        else some contentLen
      hs.set i { h with position := pos, end_position := endPos }

/-- Model of the position-computation loop of extract_headings: iterate
chpStep for i = 0, 1, ..., len-1 (skipped entirely when no headings were
collected). -/
def computeHeadingPositions (content : Str) (hs : List HeadingM) : List HeadingM :=
  if hs.isEmpty then hs
  else (List.range hs.length).foldl
    (fun acc i => chpStep (toLower content) (utf8Len content) acc i) hs

/-! ## Search builder heading hierarchy (search/src/builder.rs)

Model of build_heading_hierarchy over the shared HeadingIndexEntryM.  Note
that the heading id is formatted from article.id — the string identifier —
not from the ordinal parameter of extract_headings, which the source never
uses. -/

/-- Pop the stack while the top's level is at least the current level; the
new top, if any, is the parent. -/
def popHeadingStack (level : Nat) : List (Str × Nat) → List (Str × Nat) × Option Str
  | [] => ([], none)
  | (lid, llevel) :: rest =>
    if level ≤ llevel then popHeadingStack level rest
    else ((lid, llevel) :: rest, some lid)

/-- The main loop of build_heading_hierarchy: assign ids
article.id ++ ":" ++ idx, compute end positions from the next sorted
heading (or the content byte length), resolve parents through the stack,
and record parent-child edges. -/
def bhhLoop (articleId : Str) (contentLen : Nat) :
    Nat → List (Nat × Str × Nat) → List (Str × Nat) →
    List (Str × HeadingIndexEntryM) → List (Str × List Str) →
    List (Str × HeadingIndexEntryM) × List (Str × List Str)
  | _, [], _, result, childrenMap => (result, childrenMap)
  | idx, (level, text, position) :: rest, stack, result, childrenMap =>
    let headingId := articleId ++ (58 :: natRepr idx)
    let endPosition := match rest with
      | (_, _, nextPos) :: _ => nextPos
      | [] => contentLen
    let popped := popHeadingStack level stack
    let childrenMap2 := match popped.2 with
      | some pid => alInsert childrenMap pid headingId
      | none => childrenMap
    let entry : HeadingIndexEntryM :=
      ⟨headingId, level, text, position, endPosition, popped.2, []⟩
    bhhLoop articleId contentLen (idx + 1) rest ((headingId, level) :: popped.1)
      (result ++ [(headingId, entry)]) childrenMap2

/-- Fill each parent's children_ids, sorted ascending by the child's start
position (0 if the child id is unknown, as in the source). -/
def fillChildren (result : List (Str × HeadingIndexEntryM))
    (childrenMap : List (Str × List Str)) : List (Str × HeadingIndexEntryM) :=
  result.map (fun p =>
    match alGet childrenMap p.1 with
    | none => p
    | some children =>
      let posOf := fun cid =>
        match alGet result cid with
        | some e => e.start_position
        | none => 0
      (p.1, { p.2 with children_ids := sortAscBy posOf children }))

/-- Model of build_heading_hierarchy over position-sorted
(level, text, position) triples. -/
def buildHeadingHierarchy (articleId : Str) (content : Str)
    (sortedHeadings : List (Nat × Str × Nat)) : List (Str × HeadingIndexEntryM) :=
  let r := bhhLoop articleId (utf8Len content) 0 sortedHeadings [] [] []
  fillChildren r.1 r.2

/-- Model of build_heading_structure_from_extracted: sort the parsed
headings by position, then build the hierarchy. -/
def buildHeadingStructureFromExtracted (articleId : Str) (content : Str)
    (headings : List HeadingM) : List (Str × HeadingIndexEntryM) :=
  buildHeadingHierarchy articleId content
    (sortAscBy (fun t => t.2.2) (headings.map (fun h => (h.level, h.text, h.position))))

/-! ## Search builder tokenizer and index assembly (search/src/builder.rs) -/

/-- An article as the builder sees it (fields used by the modelled
functions). -/
structure BArticle where
  id : Str
  title : Str
  content : Str
  page_type : Str
  headings : List HeadingM
  deriving DecidableEq

/-- Model of remove_html_tags: drop everything between < and >, then
trim. -/
def removeHtmlTagsAux : Str → Bool → Str
  | [], _ => []
  | c :: t, inTag =>
    if c = 60 then removeHtmlTagsAux t true
    else if c = 62 then removeHtmlTagsAux t false
    else if inTag then removeHtmlTagsAux t inTag
    else c :: removeHtmlTagsAux t inTag

def removeHtmlTags (s : Str) : Str := strTrim (removeHtmlTagsAux s false)

/-- Emit the 1-, 2- and 3-grams of a run of buffered characters, keeping
those of byte length at least 2 (the source's term.len() >= 2 is a BYTE
length, so a single 3-byte CJK character passes). -/
def emitHanNgrams (chinese : Str) (keywords : List Str) : List Str :=
  (List.range (min chinese.length 3)).foldl (fun kw i0 =>
    let i := i0 + 1
    (List.range (chinese.length - i + 1)).foldl (fun kw2 start =>
      let term := (chinese.drop start).take i
      if 2 ≤ utf8Len term then insertUniq term kw2 else kw2) kw) keywords

/-- Tokenizer state of extract_keywords. -/
structure KwState where
  keywords : List Str
  current_word : Str
  chinese_chars : Str

/-- Flush the latin buffer: insert it only when its byte length is at
least 2 — and, exactly as in the source, clear it only in that case. -/
def kwFlushWord (st : KwState) : KwState :=
  if st.current_word ≠ ([] : Str) ∧ 2 ≤ utf8Len st.current_word then
    { st with keywords := insertUniq st.current_word st.keywords, current_word := [] }
  else st

/-- One character step of extract_keywords.  Rust's char::is_alphanumeric
is Unicode-wide, so CJK ideographs take the first branch and join the
latin buffer; the third branch only collects characters that are neither
alphanumeric nor whitespace nor ASCII punctuation. -/
def kwStep (st : KwState) (c : Nat) : KwState :=
  if isAlphanumericChar c || c == 95 || c == 45 then
    { keywords := if st.chinese_chars = ([] : Str) then st.keywords
        else emitHanNgrams st.chinese_chars st.keywords,
      current_word := st.current_word ++ [c],
      chinese_chars := [] }
  else if isWhitespaceChar c || isAsciiPunct c then
    let st2 := kwFlushWord st
    if st2.chinese_chars = ([] : Str) then st2
    else
      { keywords := emitHanNgrams st2.chinese_chars st2.keywords,
        current_word := st2.current_word,
        chinese_chars := [] }
  else
    let st2 := kwFlushWord st
    { st2 with chinese_chars := st2.chinese_chars ++ [c] }

/-- Model of extract_keywords: trim and lowercase, run the two-buffer
state machine, flush both buffers, then drop all-ASCII-digit tokens. -/
def extractKeywords (text : Str) : List Str :=
  let cleanText := toLower (strTrim text)
  let st := cleanText.foldl kwStep ⟨[], [], []⟩
  let st2 := kwFlushWord st
  let kw := if st2.chinese_chars = ([] : Str) then st2.keywords
    else emitHanNgrams st2.chinese_chars st2.keywords
  kw.filter (fun k => ! k.all isAsciiDigit)

/-- The fixed stop-word set of build_search_index, as codepoint lists. -/
def stopWords : List Str :=
  [[30340], [26159], [22312], [20102], [21644], [19982], [25110], [32780],
   [20294], [22914, 26524], [22240, 20026], [25152, 20197], [36825], [37027],
   [36825, 20010], [37027, 20010], [36825, 20123], [37027, 20123], [24182],
   [21487, 20197], [25226], [34987], [23558], [24050], [23601], [20063],
   [24456], [21040], [19978], [19979], [20013], [20026]]

/-- Does the remaining text start with a closing tag of the form
the five characters <, /, h, digit, > (regex </h\d>)? -/
def isCloseTagAt (s : Str) : Bool :=
  match s with
  | 60 :: 47 :: 104 :: d :: 62 :: _ => isAsciiDigit d
  | _ => false

/-- Character index of the earliest closing tag (the lazy body capture of
the heading regexes stops at the first one). -/
def findCloseTagIdx : Str → Option Nat
  | [] => if isCloseTagAt [] then some 0 else none
  | c :: t =>
    if isCloseTagAt (c :: t) then some 0
    else (findCloseTagIdx t).map (· + 1)

/-- After <h and the level digit, the opening tag continues with either an
immediate > or whitespace followed by attribute text up to the first >
(regex group (?:\s+[^>]*)?>); returns the number of characters consumed
including the closing >. -/
def matchOpenTagRest (s : Str) : Option Nat :=
  match s with
  | [] => none
  | 62 :: _ => some 1
  | c :: rest =>
    if isWhitespaceChar c then
      match strFindChar (c :: rest) [62] with
      | some j => some (j + 1)
      | none => none
    else none

/-- Scanner for the primary heading regex of extract_headings in the
builder: match <h([1-6])(?:\s+[^>]*)?> then the lazy body up to the first
</h digit >; on a match, emit (level, raw body, byte offset of the match)
and continue after the match, otherwise advance one character. -/
def scanHPrimAux : Nat → Str → Nat → List (Nat × Str × Nat)
  | 0, _, _ => []
  | _ + 1, [], _ => []
  | fuel + 1, c :: t, bytePos =>
    let fallthrough := scanHPrimAux fuel t (bytePos + utf8CharLen c)
    match c :: t with
    | 60 :: 104 :: d :: rest =>
      if 49 ≤ d ∧ d ≤ 54 then
        match matchOpenTagRest rest with
        | some consumed =>
          let body := rest.drop consumed
          match findCloseTagIdx body with
          | some k =>
            let mlen := 3 + consumed + k + 5
            (d - 48, body.take k, bytePos) ::
              scanHPrimAux fuel ((c :: t).drop mlen)
                (bytePos + utf8Len ((c :: t).take mlen))
          | none => fallthrough
        | none => fallthrough
      else fallthrough
    | _ => fallthrough

def scanHeadingsPrimary (content : Str) : List (Nat × Str × Nat) :=
  scanHPrimAux content.length content 0

/-- Scanner for the fallback regex <h\d[^>]*>(.*?)</h\d>: any digit after
<h, attribute text up to the first >, then a lazy body that cannot span a
newline, up to the first closing tag. -/
def scanHFallAux : Nat → Str → Nat → List (Str × Nat)
  | 0, _, _ => []
  | _ + 1, [], _ => []
  | fuel + 1, c :: t, bytePos =>
    let fallthrough := scanHFallAux fuel t (bytePos + utf8CharLen c)
    match c :: t with
    | 60 :: 104 :: d :: rest =>
      if isAsciiDigit d then
        match strFindChar rest [62] with
        | some j =>
          let body := rest.drop (j + 1)
          match findCloseTagIdx body with
          | some k =>
            if (body.take k).contains 10 then fallthrough
            else
              let mlen := 3 + (j + 1) + k + 5
              (body.take k, bytePos) ::
                scanHFallAux fuel ((c :: t).drop mlen)
                  (bytePos + utf8Len ((c :: t).take mlen))
          | none => fallthrough
        | none => fallthrough
      else fallthrough
    | _ => fallthrough

def scanHeadingsFallback (content : Str) : List (Str × Nat) :=
  scanHFallAux content.length content 0

/-- Model of SearchBuilder::extract_headings: prefer the parsed headings,
else the primary regex scan, else the fallback scan at level 1; clean each
title with remove_html_tags and trim, drop empties, sort by position and
build the hierarchy. -/
def builderExtractHeadings (article : BArticle) : List (Str × HeadingIndexEntryM) :=
  if article.content = ([] : Str) then []
  else if article.headings ≠ [] then
    buildHeadingStructureFromExtracted article.id article.content article.headings
  else
    let extracted := (scanHeadingsPrimary article.content).filterMap (fun t =>
      let text := strTrim (removeHtmlTags t.2.1)
      if text = ([] : Str) then none else some (t.1, text, t.2.2))
    let extracted2 := if extracted = [] then
        (scanHeadingsFallback article.content).filterMap (fun t =>
          let text := strTrim (removeHtmlTags t.1)
          if text = ([] : Str) then none else some (1, text, t.2))
      else extracted
    if extracted2 = [] then []
    else buildHeadingHierarchy article.id article.content
      (sortAscBy (fun t => t.2.2) extracted2)

/-- Model of build_title_term_index: keywords of each title, plus the
whitespace-split title words trimmed of non-word characters and kept when
their byte length is at least 2. -/
def buildTitleTermIndex (articles : List BArticle) : List (Str × List Nat) :=
  (enumL articles).foldl (fun idx p =>
    let fromKw := (extractKeywords p.2.title).foldl (fun m kw => alInsert m kw p.1) idx
    let titleWords := ((splitWhitespace (toLower p.2.title)).map
        (trimMatches (fun c => ! (isAlphanumericChar c || c == 95 || c == 45)))).filter
        (fun s => 2 ≤ utf8Len s)
    titleWords.foldl (fun m w => alInsert m w p.1) fromKw) []

/-- Model of build_heading_term_index. -/
def buildHeadingTermIndex (headings : List (Str × HeadingIndexEntryM)) :
    List (Str × List Str) :=
  headings.foldl (fun idx p =>
    (extractKeywords p.2.text).foldl (fun m kw => alInsert m kw p.1) idx) []

/-- The search index as built (models ArticleSearchIndex on the builder
side, with builder articles). -/
structure BSearchIndexM where
  articles : List BArticle
  title_term_index : List (Str × List Nat)
  heading_index : List (Str × HeadingIndexEntryM)
  heading_term_index : List (Str × List Str)
  common_terms : List (Str × Nat)
  content_term_index : List (Str × List Nat)

/-- The per-article frequency/content-index step of build_search_index:
title keywords add 3 to the global frequency; content keywords (already
deduplicated by extract_keywords) are counted per article and added to the
content index; per-article counts of at least 2 add 1 globally. -/
def bsiArticleStep (acc : List (Str × Nat) × List (Str × List Nat))
    (p : Nat × BArticle) : List (Str × Nat) × List (Str × List Nat) :=
  let titleKeywords := extractKeywords p.2.title
  let tf1 := titleKeywords.foldl (fun m kw =>
    if kw ∉ stopWords ∧ 2 ≤ utf8Len kw then alAdd m kw 3 else m) acc.1
  let contentKeywords := extractKeywords p.2.content
  let inner := contentKeywords.foldl
    (fun (q : List (Str × Nat) × List (Str × List Nat)) kw =>
      if kw ∉ stopWords ∧ 2 ≤ utf8Len kw then (alAdd q.1 kw 1, alInsert q.2 kw p.1)
      else q) (([] : List (Str × Nat)), acc.2)
  let tf2 := inner.1.foldl (fun m q => if 2 ≤ q.2 then alAdd m q.1 1 else m) tf1
  (tf2, inner.2)

/-- Model of build_search_index (fails on an empty article list). -/
def buildSearchIndex (articles : List BArticle) : Option BSearchIndexM :=
  if articles = [] then none
  else
    let title_term_index := buildTitleTermIndex articles
    let all_headings := (enumL articles).foldl
      (fun acc p => acc ++ builderExtractHeadings p.2) []
    let heading_term_index := buildHeadingTermIndex all_headings
    let freqAndContent := (enumL articles).foldl bsiArticleStep ([], [])
    let common_terms := List.take 500 (sortDescBy (fun q => q.2) freqAndContent.1)
    some ⟨articles, title_term_index, all_headings, heading_term_index,
      common_terms, freqAndContent.2⟩

/-- Model of SearchBuilder::add_article: directory pages are skipped. -/
def searchBuilderArticles (l : List BArticle) : List BArticle :=
  l.filter (fun a => ! (a.page_type == [100, 105, 114, 101, 99, 116, 111, 114, 121]))

/-! ## Codec frame (utils-common/src/compression.rs)

The bincode payload serializer and the gzip stream are external library
collaborators; they enter as function parameters, and the round-trip
theorem assumes exactly their documented inverse laws.  The frame itself —
magic, version gate, little-endian length, length check — is modelled from
the source. -/

/-- Little-endian u32 bytes of a length (u32::to_le_bytes after the as-u32
cast; lengths are assumed below 2^32 where it matters). -/
def u32le (n : Nat) : List Nat :=
  [n % 256, n / 256 % 256, n / 65536 % 256, n / 16777216 % 256]

/-- The 5-byte magic NECMP. -/
def compressMagic : List Nat := [78, 69, 67, 77, 80]

/-- Model of to_compressed: magic, two version bytes, little-endian
uncompressed length, then the compressed payload. -/
def toCompressed {α : Type} (ser : α → List Nat) (compress : List Nat → List Nat)
    (x : α) (version : Nat × Nat) : List Nat :=
  let binary := ser x
  compressMagic ++ [version.1, version.2] ++ u32le binary.length ++ compress binary

/-- Model of from_compressed_with_max_version: fail on short data, magic
mismatch, major version above the maximum, or decompressed length not
matching the declared length; otherwise deserialize. -/
def fromCompressedWithMaxVersion {α : Type} (deser : List Nat → Option α)
    (decompress : List Nat → Option (List Nat)) (data : List Nat)
    (maxVersion : Nat) : Option α :=
  match data with
  | m0 :: m1 :: m2 :: m3 :: m4 :: v0 :: _v1 :: s0 :: s1 :: s2 :: s3 :: rest =>
    if [m0, m1, m2, m3, m4] ≠ compressMagic then none
    else if maxVersion < v0 then none
    else
      let originalSize := s0 + 256 * s1 + 65536 * s2 + 16777216 * s3
      match decompress rest with
      | none => none
      | some dec => if dec.length ≠ originalSize then none else deser dec
  | _ => none

/-! ## Filter engine (article-filter/src/lib.rs) -/

/-- An article as the filter engine sees it; the date is the chrono UTC
timestamp, modelled as an integer with the chronological order. -/
structure FArticle where
  id : Str
  title : Str
  date : Int
  tags : List Str
  deriving DecidableEq

/-- The loaded filter index (models ArticleIndex). -/
structure ArticleIndexM where
  articles : List FArticle
  tag_index : List (Str × List Nat)

structure FilterParamsM where
  tags : Option (List Str)
  sort : Option Str
  page : Option Nat
  limit : Option Nat
  date : Option Str

structure FilterResultM where
  articles : List FArticle
  total : Nat
  page : Nat
  limit : Nat
  total_pages : Nat
  deriving DecidableEq

def digitVal (c : Nat) : Nat := c - 48

/-- Model of chrono DateTime::parse_from_rfc3339 on the strings this
engine builds (date ++ "T00:00:00Z" and date ++ "T23:59:59Z"): accepts
exactly YYYY-MM-DDTHH:MM:SSZ with in-range fields and returns a timestamp
in a mixed-radix encoding that preserves chronological order.  (chrono
additionally validates day-of-month against the calendar and accepts
other offsets; neither matters for the inputs used here.) -/
def parseRFC3339 (s : Str) : Option Int :=
  match s with
  | [y1, y2, y3, y4, 45, mo1, mo2, 45, d1, d2, 84, h1, h2, 58, mi1, mi2, 58,
      se1, se2, 90] =>
    if ([y1, y2, y3, y4, mo1, mo2, d1, d2, h1, h2, mi1, mi2, se1, se2] : Str).all
        isAsciiDigit then
      let y := digitVal y1 * 1000 + digitVal y2 * 100 + digitVal y3 * 10 + digitVal y4
      let mo := digitVal mo1 * 10 + digitVal mo2
      let d := digitVal d1 * 10 + digitVal d2
      let h := digitVal h1 * 10 + digitVal h2
      let mi := digitVal mi1 * 10 + digitVal mi2
      let se := digitVal se1 * 10 + digitVal se2
      if 1 ≤ mo ∧ mo ≤ 12 ∧ 1 ≤ d ∧ d ≤ 31 ∧ h ≤ 23 ∧ mi ≤ 59 ∧ se ≤ 59 then
        some (Int.ofNat (((((y * 13 + mo) * 32 + d) * 24 + h) * 60 + mi) * 60 + se))
      else none
    else none
  | _ => none

/-- Model of filter_by_tags: union of the posting sets of the given
tags. -/
def filterByTags (idx : ArticleIndexM) (tags : List Str) : List Nat :=
  tags.foldl (fun result tag =>
    match alGet idx.tag_index tag with
    | none => result
    | some ids => ids.foldl (fun r i => insertUniq i r) result) []

/-- The date-range filter step of apply_filters.  When both sides are
present, BOTH bounds are dropped unless BOTH parse; a single present side
is dropped only if IT fails to parse. -/
def applyDateFilter (idx : ArticleIndexM) (dateParam : Str) (candidates : List Nat) :
    List Nat :=
  let dateParts := strSplitOn 44 dateParam
  let startStr := (dateParts.get? 0).getD []
  let endStr := (dateParts.get? 1).getD []
  let keepGE := fun (s : Int) (i : Nat) =>
    match idx.articles.get? i with
    | some a => decide (s ≤ a.date)
    | none => false
  let keepLE := fun (e : Int) (i : Nat) =>
    match idx.articles.get? i with
    | some a => decide (a.date ≤ e)
    | none => false
  if startStr ≠ ([] : Str) ∧ endStr ≠ ([] : Str) then
    match parseRFC3339 (startStr ++ [84, 48, 48, 58, 48, 48, 58, 48, 48, 90]),
        parseRFC3339 (endStr ++ [84, 50, 51, 58, 53, 57, 58, 53, 57, 90]) with
    | some s, some e => candidates.filter (fun i => keepGE s i && keepLE e i)
    | _, _ => candidates
  else if startStr ≠ ([] : Str) then
    match parseRFC3339 (startStr ++ [84, 48, 48, 58, 48, 48, 58, 48, 48, 90]) with
    | some s => candidates.filter (keepGE s)
    | none => candidates
  else if endStr ≠ ([] : Str) then
    match parseRFC3339 (endStr ++ [84, 50, 51, 58, 53, 57, 58, 53, 57, 90]) with
    | some e => candidates.filter (keepLE e)
    | none => candidates
  else candidates

/-- The tag filter step of apply_filters: keep the candidates that lie in
the union of the given tags' posting sets (no-op when tags are absent or
empty). -/
def applyTagFilter (idx : ArticleIndexM) (tagsParam : Option (List Str))
    (candidates : List Nat) : List Nat :=
  match tagsParam with
  | some tags =>
    if tags ≠ [] then candidates.filter (fun i => i ∈ filterByTags idx tags)
    else candidates
  | none => candidates

/-- Model of apply_filters: start from all ordinals, intersect with the
tag union when tags are given, then apply the date filter unless the
parameter is absent or "all". -/
def applyFilters (idx : ArticleIndexM) (p : FilterParamsM) : List Nat :=
  let candidates2 := applyTagFilter idx p.tags (List.range idx.articles.length)
  match p.date with
  | none => candidates2
  | some dateParam =>
    if dateParam = ([97, 108, 108] : Str) then candidates2
    else applyDateFilter idx dateParam candidates2

/-- Model of apply_sorting: oldest ascending by date, title_asc and
title_desc by title, anything else (including absent) newest, i.e.
descending by date; ties keep the incoming order. -/
def applySorting (articles : List FArticle) (p : FilterParamsM) : List FArticle :=
  match p.sort with
  | some sortStr =>
    if sortStr = ([111, 108, 100, 101, 115, 116] : Str) then
      sortKeep (fun y x => decide (y.date ≤ x.date)) articles
    else if sortStr = ([116, 105, 116, 108, 101, 95, 97, 115, 99] : Str) then
      sortKeep (fun y x => lexLeStr y.title x.title) articles
    else if sortStr = ([116, 105, 116, 108, 101, 95, 100, 101, 115, 99] : Str) then
      sortKeep (fun y x => lexLeStr x.title y.title) articles
    else sortKeep (fun y x => decide (x.date ≤ y.date)) articles
  | none => sortKeep (fun y x => decide (x.date ≤ y.date)) articles

/-- Model of filter_articles (on a loaded index): filter, materialize,
sort, then paginate with page and limit clamped to at least 1, the page
clamped into the available pages, and the slice
[(page-1)*limit, min(page*limit, total)). -/
def filterArticles (idx : ArticleIndexM) (p : FilterParamsM) : FilterResultM :=
  let candidateIds := applyFilters idx p
  let filtered := candidateIds.filterMap (fun i => idx.articles.get? i)
  let sorted := applySorting filtered p
  let page0 := max (p.page.getD 1) 1
  let limit := max (p.limit.getD 12) 1
  let total := sorted.length
  let totalPages := (total + limit - 1) / max limit 1
  let page := min page0 (max totalPages 1)
  let start := (page - 1) * limit
  let endI := min (start + limit) total
  let pagedArticles := if start < sorted.length then
      (sorted.drop start).take (endI - start)
    else []
  ⟨pagedArticles, total, page, limit, totalPages⟩

/-! ## Codec round-trip lemmas -/

/-- C8: decoding the bytes produced by encoding returns the original
value: from_compressed_with_max_version (to_compressed x v) maxVersion =
x whenever the payload serializer and the compressor satisfy their
round-trip contracts, the payload fits in a u32 length, and the major
version does not exceed the loader maximum. -/
theorem c8_codec_roundtrip {α : Type} (ser : α → List Nat) (deser : List Nat → Option α)
    (compress : List Nat → List Nat) (decompress : List Nat → Option (List Nat))
    (x : α) (v : Nat × Nat) (maxVersion : Nat)
    (hser : deser (ser x) = some x)
    (hcomp : decompress (compress (ser x)) = some (ser x))
    (hlen : (ser x).length < 4294967296)
    (hv : v.1 ≤ maxVersion) :
    fromCompressedWithMaxVersion deser decompress
      (toCompressed ser compress x v) maxVersion = some x := by
  simp only [toCompressed, compressMagic, u32le, List.cons_append, List.nil_append]
  simp only [fromCompressedWithMaxVersion]
  rw [if_neg (by simp [compressMagic]), if_neg (by omega)]
  rw [hcomp]
  simp only
  rw [if_neg (by omega)]
  exact hser

/-! ## Filter engine lemmas -/

theorem foldl_preserve {α β : Type} (P : β → Prop) (f : β → α → β) :
    ∀ (l : List α) (b : β), P b → (∀ b' a, P b' → a ∈ l → P (f b' a)) →
      P (List.foldl f b l) := by
  intro l
  induction l with
  | nil => intro b hb _; simpa using hb
  | cons x xs ih =>
    intro b hb hf
    simp only [List.foldl_cons]
    exact ih (f b x) (hf b x hb (List.mem_cons_self _ _))
      (fun b' a hb' ha => hf b' a hb' (List.mem_cons_of_mem _ ha))

theorem applyDateFilter_subset (idx : ArticleIndexM) (dateParam : Str)
    (candidates : List Nat) :
    ∀ i, i ∈ applyDateFilter idx dateParam candidates → i ∈ candidates := by
  intro i hi
  unfold applyDateFilter at hi
  dsimp only at hi
  repeat' split at hi
  all_goals first
    | exact hi
    | exact (List.mem_filter.mp hi).1

theorem applyTagFilter_subset (idx : ArticleIndexM) (tagsParam : Option (List Str))
    (candidates : List Nat) :
    ∀ i, i ∈ applyTagFilter idx tagsParam candidates → i ∈ candidates := by
  intro i hi
  unfold applyTagFilter at hi
  repeat' split at hi
  all_goals first
    | exact hi
    | exact (List.mem_filter.mp hi).1

theorem applyFilters_mem_lt (idx : ArticleIndexM) (p : FilterParamsM) :
    ∀ i, i ∈ applyFilters idx p → i < idx.articles.length := by
  intro i hi
  unfold applyFilters at hi
  dsimp only at hi
  have hc2 : ∀ j, j ∈ applyTagFilter idx p.tags (List.range idx.articles.length) →
      j < idx.articles.length := by
    intro j hj
    exact List.mem_range.mp (applyTagFilter_subset idx p.tags _ j hj)
  split at hi
  · exact hc2 i hi
  · split at hi
    · exact hc2 i hi
    · exact hc2 i (applyDateFilter_subset idx _ _ i hi)

theorem filterMap_get_length {α : Type} (arts : List α) (l : List Nat)
    (h : ∀ i ∈ l, i < arts.length) :
    (l.filterMap (fun i => arts.get? i)).length = l.length := by
  induction l with
  | nil => simp
  | cons i rest ih =>
    have hi : i < arts.length := h i (List.mem_cons_self _ _)
    have ha : arts.get? i = some (arts.get ⟨i, hi⟩) := List.get?_eq_get hi
    simp only [List.filterMap_cons, ha]
    simp only [List.length_cons]
    rw [ih (fun j hj => h j (List.mem_cons_of_mem _ hj))]

theorem insertKeep_perm {α : Type} (keep : α → α → Bool) (x : α) (l : List α) :
    List.Perm (insertKeep keep x l) (x :: l) := by
  induction l with
  | nil => simp [insertKeep]
  | cons y ys ih =>
    simp only [insertKeep]
    split
    · exact List.Perm.trans (List.Perm.cons y ih) (List.Perm.swap x y ys)
    · exact List.Perm.refl _

theorem sortKeep_perm {α : Type} (keep : α → α → Bool) (l : List α) :
    List.Perm (sortKeep keep l) l := by
  suffices h : ∀ acc : List α,
      List.Perm (List.foldl (fun acc x => insertKeep keep x acc) acc l) (acc ++ l) by
    simpa using h []
  induction l with
  | nil => intro acc; simp
  | cons y ys ih =>
    intro acc
    simp only [List.foldl_cons]
    refine List.Perm.trans (ih (insertKeep keep y acc)) ?_
    have h1 : List.Perm (insertKeep keep y acc ++ ys) ((y :: acc) ++ ys) :=
      List.Perm.append_right ys (insertKeep_perm keep y acc)
    refine List.Perm.trans h1 ?_
    simp only [List.cons_append]
    exact (List.perm_middle).symm

theorem sortKeep_length {α : Type} (keep : α → α → Bool) (l : List α) :
    (sortKeep keep l).length = l.length :=
  (sortKeep_perm keep l).length_eq

theorem applySorting_length (l : List FArticle) (p : FilterParamsM) :
    (applySorting l p).length = l.length := by
  unfold applySorting
  repeat' split
  all_goals exact sortKeep_length _ _

/-- C9: for every loaded filter index and parameter set, filter_articles
returns total equal to the number of ordinals passing the tag and date
predicates, total_pages = ceil(total/limit), a page clamped into
[1, max(1, total_pages)], the slice
[(page-1)*limit, min(page*limit, total)) of the sorted matches, and hence
at most limit items. -/
theorem c9_filter_pagination (idx : ArticleIndexM) (p : FilterParamsM) :
    (filterArticles idx p).total = (applyFilters idx p).length ∧
    (filterArticles idx p).limit = max (p.limit.getD 12) 1 ∧
    (filterArticles idx p).total_pages =
      ((filterArticles idx p).total + (filterArticles idx p).limit - 1) /
        (filterArticles idx p).limit ∧
    1 ≤ (filterArticles idx p).page ∧
    (filterArticles idx p).page ≤ max 1 (filterArticles idx p).total_pages ∧
    (filterArticles idx p).articles =
      ((applySorting ((applyFilters idx p).filterMap
          (fun i => idx.articles.get? i)) p).drop
        (((filterArticles idx p).page - 1) * (filterArticles idx p).limit)).take
        (min ((filterArticles idx p).page * (filterArticles idx p).limit)
            (filterArticles idx p).total -
          ((filterArticles idx p).page - 1) * (filterArticles idx p).limit) ∧
    (filterArticles idx p).articles.length ≤ (filterArticles idx p).limit := by
  have hlt := applyFilters_mem_lt idx p
  have hflen : ((applyFilters idx p).filterMap (fun i => idx.articles.get? i)).length
      = (applyFilters idx p).length := filterMap_get_length _ _ hlt
  have e1 : (filterArticles idx p).total =
      (applySorting ((applyFilters idx p).filterMap
        (fun i => idx.articles.get? i)) p).length := rfl
  have e2 : (filterArticles idx p).limit = max (p.limit.getD 12) 1 := rfl
  have e3 : (filterArticles idx p).total_pages =
      ((filterArticles idx p).total + (filterArticles idx p).limit - 1) /
        max ((filterArticles idx p).limit) 1 := rfl
  have e4 : (filterArticles idx p).page =
      min (max (p.page.getD 1) 1)
        (max ((filterArticles idx p).total_pages) 1) := rfl
  have e5 : (filterArticles idx p).articles =
      (if ((filterArticles idx p).page - 1) * (filterArticles idx p).limit <
          (applySorting ((applyFilters idx p).filterMap
            (fun i => idx.articles.get? i)) p).length then
        ((applySorting ((applyFilters idx p).filterMap
            (fun i => idx.articles.get? i)) p).drop
          (((filterArticles idx p).page - 1) * (filterArticles idx p).limit)).take
          (min ((((filterArticles idx p).page - 1) *
              (filterArticles idx p).limit) + (filterArticles idx p).limit)
            ((filterArticles idx p).total) -
            ((filterArticles idx p).page - 1) * (filterArticles idx p).limit)
      else []) := rfl
  have hlim1 : 1 ≤ (filterArticles idx p).limit := by
    rw [e2]; omega
  have hpage1 : 1 ≤ (filterArticles idx p).page := by
    rw [e4]; omega
  have htotal : (filterArticles idx p).total =
      ((applyFilters idx p).filterMap (fun i => idx.articles.get? i)).length := by
    rw [e1, applySorting_length]
  refine ⟨by rw [htotal, hflen], e2, ?_, hpage1, ?_, ?_, ?_⟩
  · rw [e3, Nat.max_eq_left hlim1]
  · rw [e4]; omega
  · rw [e5]
    have hmul : ((filterArticles idx p).page - 1) * (filterArticles idx p).limit +
        (filterArticles idx p).limit =
        (filterArticles idx p).page * (filterArticles idx p).limit := by
      have h := hpage1
      nlinarith [Nat.sub_add_cancel h]
    by_cases hlt2 : ((filterArticles idx p).page - 1) * (filterArticles idx p).limit <
        (applySorting ((applyFilters idx p).filterMap
          (fun i => idx.articles.get? i)) p).length
    · rw [if_pos hlt2, hmul]
    · rw [if_neg hlt2]
      rw [List.drop_eq_nil_of_le (by omega), List.take_nil]
  · rw [e5]
    split
    · refine le_trans (List.length_take_le _ _) ?_
      omega
    · simp [hlim1]

/-- C6 (amended): in apply_filters, when the date parameter has BOTH
sides non-empty and at least one side fails RFC3339 parsing, the whole
date filter is skipped — no bound is applied and no error is raised.
This corrects the claim that the valid side would still be applied. -/
theorem c6_date_filter_one_malformed_side (idx : ArticleIndexM) (dateParam : Str)
    (candidates : List Nat)
    (hstart : ((strSplitOn 44 dateParam).get? 0).getD [] ≠ ([] : Str))
    (hend : ((strSplitOn 44 dateParam).get? 1).getD [] ≠ ([] : Str))
    (hfail :
      parseRFC3339 ((((strSplitOn 44 dateParam).get? 0).getD []) ++
        [84, 48, 48, 58, 48, 48, 58, 48, 48, 90]) = none ∨
      parseRFC3339 ((((strSplitOn 44 dateParam).get? 1).getD []) ++
        [84, 50, 51, 58, 53, 57, 58, 53, 57, 90]) = none) :
    applyDateFilter idx dateParam candidates = candidates := by
  unfold applyDateFilter
  dsimp only
  rw [if_pos ⟨hstart, hend⟩]
  split
  · rename_i s e hs he
    rcases hfail with hf | hf
    · rw [hf] at hs; exact absurd hs (by simp)
    · rw [hf] at he; exact absurd he (by simp)
  · rfl

theorem lowerChar_whitespace (c : Nat) (h : isWhitespaceChar c = true) :
    lowerChar c = c := by
  simp only [isWhitespaceChar, Bool.or_eq_true, beq_iff_eq] at h
  unfold lowerChar
  rw [if_neg (by omega)]

theorem toLower_all_whitespace (l : Str) (h : l.all isWhitespaceChar = true) :
    toLower l = l := by
  induction l with
  | nil => rfl
  | cons c t ih =>
    rw [List.all_cons, Bool.and_eq_true] at h
    unfold toLower at ih ⊢
    simp only [List.map_cons]
    rw [lowerChar_whitespace c h.1, ih h.2]

theorem strTrim_all_whitespace (l : Str) (h : l.all isWhitespaceChar = true) :
    strTrim l = [] := by
  unfold strTrim
  have h1 : List.dropWhile (fun c => isWhitespaceChar c) l.reverse = [] := by
    rw [List.dropWhile_eq_nil_iff]
    intro x hx
    exact List.all_eq_true.mp h x (List.mem_reverse.mp hx)
  rw [h1]
  simp

/-- C3 (amended): an autocomplete request whose query is non-empty but
all whitespace returns empty items and the top 10 entries of common_terms
by descending frequency, each a Completion with empty matched_text.  (A
fully empty query instead short-circuits with NO suggestions, which is
what corrects the original claim; see the counterexample.) -/
theorem c3_autocomplete_blank_query (idx : SearchIndexM) (req : SearchRequestM)
    (hne : req.query ≠ ([] : Str)) (hws : req.query.all isWhitespaceChar = true) :
    (performAutocomplete idx req).items = [] ∧
    (performAutocomplete idx req).suggestions =
      (List.take 10 (sortDescBy (fun p => p.2) idx.common_terms)).map
        (fun p => ⟨p.1, SuggestionTypeM.completion, [], p.1⟩) ∧
    List.Pairwise (fun a b => b.2 ≤ a.2)
      (sortDescBy (fun p : Str × Nat => p.2) idx.common_terms) ∧
    ∀ sg ∈ (performAutocomplete idx req).suggestions,
      sg.stype = SuggestionTypeM.completion ∧ sg.matched_text = ([] : Str) ∧
      sg.text ∈ idx.common_terms.map Prod.fst := by
  have hlow : toLower req.query = req.query := toLower_all_whitespace _ hws
  have hql : toLower req.query ≠ ([] : Str) := by rw [hlow]; exact hne
  have hsugg : getSearchSuggestions idx (toLower req.query) =
      (List.take 10 (sortDescBy (fun p => p.2) idx.common_terms)).map
        (fun p => ⟨p.1, SuggestionTypeM.completion, [], p.1⟩) := by
    unfold getSearchSuggestions
    dsimp only
    rw [hlow, strTrim_all_whitespace _ hws]
    rw [if_pos (show toLower ([] : Str) = [] from rfl)]
  have hres : performAutocomplete idx req =
      ⟨[], (getSearchSuggestions idx (toLower req.query)).length, 1,
        (getSearchSuggestions idx (toLower req.query)).length, 1,
        toLower req.query, getSearchSuggestions idx (toLower req.query)⟩ := by
    unfold performAutocomplete
    dsimp only
    rw [if_neg hql]
  refine ⟨by rw [hres], by rw [hres]; exact hsugg, sortDescBy_sorted _ _, ?_⟩
  intro sg hsg
  rw [hres] at hsg
  simp only at hsg
  rw [hsugg] at hsg
  rcases List.mem_map.mp hsg with ⟨p, hp, hpe⟩
  subst hpe
  refine ⟨rfl, rfl, ?_⟩
  have hp2 : p ∈ sortDescBy (fun p : Str × Nat => p.2) idx.common_terms :=
    List.mem_of_mem_take hp
  have hp3 : p ∈ idx.common_terms := (sortDescBy_perm _ _).mem_iff.mp hp2
  exact List.mem_map.mpr ⟨p, hp3, rfl⟩

/-! ## Builder index invariants (towards the term-index key and ordinal
bounds) -/

theorem insertUniq_mem {α : Type} [DecidableEq α] (x y : α) (l : List α)
    (h : x ∈ insertUniq y l) : x = y ∨ x ∈ l := by
  unfold insertUniq at h
  split at h
  · exact Or.inr h
  · rcases List.mem_append.mp h with h2 | h2
    · exact Or.inr h2
    · simp only [List.mem_singleton] at h2
      exact Or.inl h2

theorem emitHanNgrams_good (ch : Str) (kw : List Str)
    (h : ∀ k ∈ kw, 2 ≤ utf8Len k) : ∀ k ∈ emitHanNgrams ch kw, 2 ≤ utf8Len k := by
  unfold emitHanNgrams
  refine foldl_preserve (fun kws => ∀ k ∈ kws, 2 ≤ utf8Len k) _ _ _ h ?_
  intro b a hb _
  refine foldl_preserve (fun kws => ∀ k ∈ kws, 2 ≤ utf8Len k) _ _ _ hb ?_
  intro b2 a2 hb2 _
  dsimp only
  intro k hk
  by_cases hg : 2 ≤ utf8Len ((ch.drop a2).take (a + 1))
  · rw [if_pos hg] at hk
    rcases insertUniq_mem k _ _ hk with he | hm
    · subst he; exact hg
    · exact hb2 k hm
  · rw [if_neg hg] at hk
    exact hb2 k hk

theorem kwFlushWord_good (st : KwState) (h : ∀ k ∈ st.keywords, 2 ≤ utf8Len k) :
    ∀ k ∈ (kwFlushWord st).keywords, 2 ≤ utf8Len k := by
  unfold kwFlushWord
  split
  · rename_i hcond
    intro k hk
    simp only at hk
    rcases insertUniq_mem k st.current_word st.keywords hk with he | hm
    · subst he; exact hcond.2
    · exact h k hm
  · exact h

theorem kwStep_good (st : KwState) (c : Nat)
    (h : ∀ k ∈ st.keywords, 2 ≤ utf8Len k) :
    ∀ k ∈ (kwStep st c).keywords, 2 ≤ utf8Len k := by
  unfold kwStep
  split
  · dsimp only
    split
    · exact h
    · exact emitHanNgrams_good _ _ h
  · split
    · dsimp only
      split
      · exact kwFlushWord_good st h
      · exact emitHanNgrams_good _ _ (kwFlushWord_good st h)
    · dsimp only
      exact kwFlushWord_good st h

theorem extractKeywords_good (t : Str) : ∀ k ∈ extractKeywords t, 2 ≤ utf8Len k := by
  unfold extractKeywords
  dsimp only
  intro k hk
  have hk2 := (List.mem_filter.mp hk).1
  have hst : ∀ k2 ∈ ((toLower (strTrim t)).foldl kwStep ⟨[], [], []⟩).keywords,
      2 ≤ utf8Len k2 := by
    refine foldl_preserve (fun (st : KwState) => ∀ k2 ∈ st.keywords, 2 ≤ utf8Len k2)
      _ _ _ (by intro k2 hk2; simp at hk2) ?_
    intro b a hb _
    exact kwStep_good b a hb
  have hst2 := kwFlushWord_good _ hst
  revert hk2
  split
  · intro hk2; exact hst2 k hk2
  · intro hk2; exact emitHanNgrams_good _ _ hst2 k hk2

theorem alInsert_good {α : Type} [DecidableEq α] (Q : Str → Prop) (R : α → Prop)
    (m : List (Str × List α)) (k : Str) (v : α)
    (hm : ∀ q ∈ m, Q q.1 ∧ ∀ x ∈ q.2, R x) (hk : Q k) (hv : R v) :
    ∀ q ∈ alInsert m k v, Q q.1 ∧ ∀ x ∈ q.2, R x := by
  induction m with
  | nil =>
    intro q hq
    simp only [alInsert, List.mem_singleton] at hq
    subst hq
    refine ⟨hk, ?_⟩
    intro x hx
    simp only [List.mem_singleton] at hx
    subst hx
    exact hv
  | cons p rest ih =>
    intro q hq
    obtain ⟨k2, vs⟩ := p
    simp only [alInsert] at hq
    have hhead := hm (k2, vs) (List.mem_cons_self _ _)
    have hrest : ∀ q ∈ rest, Q q.1 ∧ ∀ x ∈ q.2, R x :=
      fun q hq => hm q (List.mem_cons_of_mem _ hq)
    split at hq
    · rcases List.mem_cons.mp hq with he | hmem
      · subst he
        refine ⟨hhead.1, ?_⟩
        intro x hx
        rcases insertUniq_mem x v vs hx with he2 | hm2
        · subst he2; exact hv
        · exact hhead.2 x hm2
      · exact hrest q hmem
    · rcases List.mem_cons.mp hq with he | hmem
      · subst he; exact hhead
      · exact ih hrest q hmem

theorem enumL_fst_lt {α : Type} (l : List α) (i : Nat) (a : α)
    (h : (i, a) ∈ enumL l) : i < l.length := by
  have := (mem_enumL l i a).mp h
  exact (List.get?_eq_some.mp this).1

theorem buildTitleTermIndex_good (articles : List BArticle) :
    ∀ q ∈ buildTitleTermIndex articles,
      2 ≤ utf8Len q.1 ∧ ∀ o ∈ q.2, o < articles.length := by
  unfold buildTitleTermIndex
  refine foldl_preserve
    (fun (m : List (Str × List Nat)) =>
      ∀ q ∈ m, 2 ≤ utf8Len q.1 ∧ ∀ o ∈ q.2, o < articles.length)
    _ _ _ (by intro q hq; simp at hq) ?_
  intro b a hb ha
  obtain ⟨i, art⟩ := a
  have hlt : i < articles.length := enumL_fst_lt articles i art ha
  dsimp only
  have h1 : ∀ q ∈ (extractKeywords art.title).foldl
      (fun m kw => alInsert m kw i) b,
      2 ≤ utf8Len q.1 ∧ ∀ o ∈ q.2, o < articles.length := by
    refine foldl_preserve
      (fun (m : List (Str × List Nat)) =>
        ∀ q ∈ m, 2 ≤ utf8Len q.1 ∧ ∀ o ∈ q.2, o < articles.length)
      _ _ _ hb ?_
    intro b2 kw hb2 hkw
    exact alInsert_good (fun k => 2 ≤ utf8Len k) (fun o => o < articles.length)
      b2 kw i hb2 (extractKeywords_good art.title kw hkw) hlt
  refine foldl_preserve
    (fun (m : List (Str × List Nat)) =>
      ∀ q ∈ m, 2 ≤ utf8Len q.1 ∧ ∀ o ∈ q.2, o < articles.length)
    _ _ _ h1 ?_
  intro b2 w hb2 hw
  have hw2 : 2 ≤ utf8Len w := by
    have := (List.mem_filter.mp hw).2
    simpa using this
  exact alInsert_good (fun k => 2 ≤ utf8Len k) (fun o => o < articles.length)
    b2 w i hb2 hw2 hlt

theorem buildHeadingTermIndex_good (headings : List (Str × HeadingIndexEntryM)) :
    ∀ q ∈ buildHeadingTermIndex headings, 2 ≤ utf8Len q.1 := by
  unfold buildHeadingTermIndex
  have hmain : ∀ q ∈ headings.foldl (fun idx p =>
      (extractKeywords p.2.text).foldl (fun m kw => alInsert m kw p.1) idx) [],
      2 ≤ utf8Len q.1 ∧ ∀ x ∈ q.2, True := by
    refine foldl_preserve
      (fun (m : List (Str × List Str)) =>
        ∀ q ∈ m, 2 ≤ utf8Len q.1 ∧ ∀ x ∈ q.2, True) _ _ _
      (by intro q hq; simp at hq) ?_
    intro b a hb _
    refine foldl_preserve
      (fun (m : List (Str × List Str)) =>
        ∀ q ∈ m, 2 ≤ utf8Len q.1 ∧ ∀ x ∈ q.2, True) _ _ _ hb ?_
    intro b2 kw hb2 hkw
    exact alInsert_good (fun k => 2 ≤ utf8Len k) (fun _ => True)
      b2 kw a.1 hb2 (extractKeywords_good a.2.text kw hkw) trivial
  exact fun q hq => (hmain q hq).1

theorem bsiArticleStep_good (articles : List BArticle)
    (acc : List (Str × Nat) × List (Str × List Nat)) (p : Nat × BArticle)
    (hacc : ∀ q ∈ acc.2, 2 ≤ utf8Len q.1 ∧ ∀ o ∈ q.2, o < articles.length)
    (hp : p.1 < articles.length) :
    ∀ q ∈ (bsiArticleStep acc p).2,
      2 ≤ utf8Len q.1 ∧ ∀ o ∈ q.2, o < articles.length := by
  unfold bsiArticleStep
  dsimp only
  have hinner : ∀ q ∈ ((extractKeywords p.2.content).foldl
      (fun (q : List (Str × Nat) × List (Str × List Nat)) kw =>
        if kw ∉ stopWords ∧ 2 ≤ utf8Len kw then (alAdd q.1 kw 1, alInsert q.2 kw p.1)
        else q) (([] : List (Str × Nat)), acc.2)).2,
      2 ≤ utf8Len q.1 ∧ ∀ o ∈ q.2, o < articles.length := by
    refine foldl_preserve
      (fun (q : List (Str × Nat) × List (Str × List Nat)) =>
        ∀ r ∈ q.2, 2 ≤ utf8Len r.1 ∧ ∀ o ∈ r.2, o < articles.length)
      _ _ _ hacc ?_
    intro b kw hb _
    dsimp only
    split
    · rename_i hg
      exact alInsert_good (fun k => 2 ≤ utf8Len k) (fun o => o < articles.length)
        b.2 kw p.1 hb hg.2 hp
    · exact hb
  exact hinner

/-- C5 (amended): in every index built by build_search_index, every key
of title_term_index, heading_term_index and content_term_index has BYTE
length at least 2 (not character length — see the counterexample), and
every ordinal in a posting set of title_term_index or content_term_index
is below the number of indexed articles. -/
theorem c5_term_index_invariants (articles : List BArticle) (idx : BSearchIndexM)
    (h : buildSearchIndex articles = some idx) :
    idx.articles = articles ∧
    (∀ q ∈ idx.title_term_index,
      2 ≤ utf8Len q.1 ∧ ∀ o ∈ q.2, o < articles.length) ∧
    (∀ q ∈ idx.heading_term_index, 2 ≤ utf8Len q.1) ∧
    (∀ q ∈ idx.content_term_index,
      2 ≤ utf8Len q.1 ∧ ∀ o ∈ q.2, o < articles.length) := by
  unfold buildSearchIndex at h
  split at h
  · exact absurd h (by simp)
  · dsimp only at h
    injection h with h
    subst h
    refine ⟨rfl, buildTitleTermIndex_good articles, buildHeadingTermIndex_good _, ?_⟩
    have hmain : ∀ q ∈ ((enumL articles).foldl bsiArticleStep ([], [])).2,
        2 ≤ utf8Len q.1 ∧ ∀ o ∈ q.2, o < articles.length := by
      refine foldl_preserve
        (fun (acc : List (Str × Nat) × List (Str × List Nat)) =>
          ∀ q ∈ acc.2, 2 ≤ utf8Len q.1 ∧ ∀ o ∈ q.2, o < articles.length)
        _ _ _ (by intro q hq; simp at hq) ?_
      intro b a hb ha
      exact bsiArticleStep_good articles b a hb
        (enumL_fst_lt articles a.1 a.2 (by simpa using ha))
    exact hmain

/-! ## Claim theorems on concrete inputs: C2, C4, C10, counterexamples and
witnesses.  String literals are codepoint lists: [119, 97, 115, 109] is
"wasm", [112, 111, 115, 116, 115, 47, 104, 101, 108, 108, 111] is
"posts/hello", [20013] is the CJK ideograph U+4E2D, [25991] is U+6587. -/

/-- C10: find_char_boundary returns the length for an index at or past the
end, keeps an index that is already a UTF-8 character boundary, and
otherwise returns a character boundary nearest to the index, preferring
the earlier boundary on ties; the result is always a valid boundary. -/
theorem c10_find_char_boundary_snap (s : List Nat) (i : Nat) :
    (s.length ≤ i → findCharBoundary s i = s.length) ∧
    (isCharBoundary s i = true → findCharBoundary s i = i) ∧
    isCharBoundary s (findCharBoundary s i) = true ∧
    (∀ j, isCharBoundary s j = true → bdist (findCharBoundary s i) i ≤ bdist j i) ∧
    (∀ j, isCharBoundary s j = true → bdist j i = bdist (findCharBoundary s i) i →
      findCharBoundary s i ≤ j) := by
  refine ⟨?_, ?_, findCharBoundary_isBoundary s i,
    fun j hj => (findCharBoundary_nearest s i j hj).1,
    fun j hj he => (findCharBoundary_nearest s i j hj).2 he⟩
  · intro h
    unfold findCharBoundary
    repeat' split
    all_goals omega
  · intro hb
    have hble := isCharBoundary_le_length s i hb
    unfold findCharBoundary
    repeat' split
    all_goals omega

/-- C10 witness: the boundary helper on the bytes of a two-character
string (104 is h, 195 169 is the UTF-8 of e-acute): index 5 snaps to the
length 3, index 2 is no farther from its snap than from boundary 1, and
boundary 1 is kept. -/
theorem c10_witness :
    findCharBoundary [104, 195, 169] 5 = 3 ∧
    bdist (findCharBoundary [104, 195, 169] 2) 2 ≤ bdist 1 2 ∧
    findCharBoundary [104, 195, 169] 1 = 1 :=
  ⟨(c10_find_char_boundary_snap [104, 195, 169] 5).1 (by decide),
   (c10_find_char_boundary_snap [104, 195, 169] 2).2.2.2.1 1 (by decide),
   (c10_find_char_boundary_snap [104, 195, 169] 1).2.1 (by decide)⟩

def c1Article : SArticle := ⟨[97], [119, 97, 115, 109], [], [], [], []⟩

def c1Idx : SearchIndexM := ⟨[c1Article], [], [], [], [], []⟩

/-- C1 counterexample: an index whose only article is titled exactly
"wasm"; the query "wasm" returns it with the tier-2 score 99, not the
tier-3 score 90 the claim requires — the tier-2 contains condition
captures exact-equality titles before tier 3 is reached. -/
theorem c1_counterexample :
    findMatchedArticles c1Idx [[119, 97, 115, 109]] = [(0, 99)] ∧
    (0, 90) ∉ findMatchedArticles c1Idx [[119, 97, 115, 109]] := by
  exact ⟨rfl, by decide⟩

/-- C1 witness: the amended theorem applied to the concrete one-article
index. -/
theorem c1_witness : (0, 99) ∈ findMatchedArticles c1Idx [[119, 97, 115, 109]] :=
  (c1_exact_title_scores_99 c1Idx [119, 97, 115, 109] 0 c1Article rfl rfl).1

def c2ArticleId : Str := [112, 111, 115, 116, 115, 47, 104, 101, 108, 108, 111]

/-- C2: build_heading_hierarchy formats heading ids from article.id — the
string path identifier — not from the article ordinal: for an article
with id "posts/hello" the single heading gets id "posts/hello:0", whose
prefix before the colon does not parse as an unsigned integer, so tier 5's
extract_article_id_from_heading returns nothing; it would need the
ordinal-prefixed id "0:0". -/
theorem c2_heading_id_eval :
    (buildHeadingHierarchy c2ArticleId [97, 98, 99] [(1, [97, 97, 97], 0)]).map
      Prod.fst = [c2ArticleId ++ [58, 48]] ∧
    extractArticleIdFromHeading (c2ArticleId ++ [58, 48]) = none ∧
    extractArticleIdFromHeading ([48] ++ [58, 48]) = some 0 :=
  ⟨rfl, rfl, rfl⟩

def c3Idx : SearchIndexM := ⟨[], [], [], [], [], [([119, 97, 115, 109], 42)]⟩

def c3ReqEmpty : SearchRequestM := ⟨[], [], 1, 10⟩

def c3ReqWs : SearchRequestM := ⟨[32], [], 1, 10⟩

/-- C3 counterexample: with a non-empty common_terms table, an
autocomplete request with a fully EMPTY query returns an empty suggestion
list — perform_autocomplete short-circuits before the common-terms branch
of get_search_suggestions is reached, contradicting the claim that the
top-10 common terms are returned. -/
theorem c3_counterexample :
    (performAutocomplete c3Idx c3ReqEmpty).items = [] ∧
    (performAutocomplete c3Idx c3ReqEmpty).suggestions = [] ∧
    c3Idx.common_terms ≠ [] :=
  ⟨rfl, rfl, by decide⟩

/-- C3 witness: the amended theorem applied to a whitespace-only query
over a one-term common_terms table. -/
theorem c3_witness :
    (performAutocomplete c3Idx c3ReqWs).items = [] ∧
    (performAutocomplete c3Idx c3ReqWs).suggestions =
      [⟨[119, 97, 115, 109], SuggestionTypeM.completion, [], [119, 97, 115, 109]⟩] := by
  have h := c3_autocomplete_blank_query c3Idx c3ReqWs (by decide) (by decide)
  refine ⟨h.1, ?_⟩
  rw [h.2.1]
  rfl

def c4Content : Str := [120, 120, 32, 97, 97, 97, 32, 121, 121, 32, 98, 98, 98, 32, 122, 122]

def c4Headings : List HeadingM :=
  [⟨1, [97, 97, 97], 0, none⟩, ⟨1, [98, 98, 98], 0, none⟩]

/-- C4: the extractor's position loop evaluated on content
"xx aaa yy bbb zz" with collected headings "aaa" and "bbb": the first
heading's end_position is read from the SECOND heading's position BEFORE
that position is computed, so it is the stale collection value 0 — not 10,
the second heading's computed position, as the claim (and the code's own
comment) require.  The claim is right and the loop is wrong. -/
theorem c4_end_position_eval :
    computeHeadingPositions c4Content c4Headings =
      [⟨1, [97, 97, 97], 3, some 0⟩, ⟨1, [98, 98, 98], 10, some 16⟩] := rfl

def c5Article : BArticle :=
  ⟨[97], [20013, 32, 25991], [104, 101, 108, 108, 111, 32, 119, 111, 114, 108, 100],
    [97, 114, 116, 105, 99, 108, 101], []⟩

def c5Articles : List BArticle := [c5Article]

def c5BuiltIndex : BSearchIndexM :=
  (buildSearchIndex c5Articles).getD ⟨[], [], [], [], [], []⟩

/-- C5 counterexample: an article titled with two CJK ideographs separated
by a space; the built title_term_index holds the single-character key
U+4E2D, whose character length is 1 < 2 — the source's length checks are
byte lengths (3 for one CJK character), so the claimed character-length
bound fails. -/
theorem c5_counterexample :
    buildSearchIndex c5Articles = some c5BuiltIndex ∧
    alGet c5BuiltIndex.title_term_index [20013] = some [0] ∧
    ([20013] : Str).length = 1 :=
  ⟨rfl, rfl, rfl⟩

/-- C5 witness: the amended invariants applied to the concrete one-article
build, instantiated at the content key "hello". -/
theorem c5_witness :
    2 ≤ utf8Len ([104, 101, 108, 108, 111] : Str) ∧ (0 : Nat) < c5Articles.length := by
  have h := (c5_term_index_invariants c5Articles c5BuiltIndex rfl).2.2.2
    (([104, 101, 108, 108, 111] : Str), ([0] : List Nat)) (by decide)
  exact ⟨h.1, h.2 0 (by decide)⟩

def c6Article : FArticle := ⟨[97], [97], 5, []⟩

def c6Idx : ArticleIndexM := ⟨[c6Article], []⟩

def c6DateParam : Str :=
  [50, 49, 48, 48, 45, 48, 49, 45, 48, 49, 44, 98, 111, 103, 117, 115]

def c6Params : FilterParamsM := ⟨none, none, none, none, some c6DateParam⟩

/-- C6 counterexample: date parameter "2100-01-01,bogus" — the start side
parses, the end side does not.  The claim requires the valid start bound
to still apply, which would exclude the article dated 5 (far before
2100-01-01); but apply_filters keeps ordinal 0, because the both-sides
branch drops BOTH bounds when either side fails to parse. -/
theorem c6_counterexample :
    applyFilters c6Idx c6Params = [0] ∧
    (parseRFC3339 ([50, 49, 48, 48, 45, 48, 49, 45, 48, 49] ++
      [84, 48, 48, 58, 48, 48, 58, 48, 48, 90])).isSome = true ∧
    parseRFC3339 ([98, 111, 103, 117, 115] ++
      [84, 50, 51, 58, 53, 57, 58, 53, 57, 90]) = none ∧
    c6Article.date < (parseRFC3339 ([50, 49, 48, 48, 45, 48, 49, 45, 48, 49] ++
      [84, 48, 48, 58, 48, 48, 58, 48, 48, 90])).getD 0 :=
  ⟨rfl, rfl, rfl, by decide⟩

/-- C6 witness: the amended theorem applied to the concrete malformed-end
parameter. -/
theorem c6_witness : applyDateFilter c6Idx c6DateParam [0] = [0] :=
  c6_date_filter_one_malformed_side c6Idx c6DateParam [0] (by decide) (by decide)
    (Or.inr (by decide))

def c7Idx : SearchIndexM := ⟨[⟨[97], [97], [97], [], [], []⟩], [], [], [], [], []⟩

def c7ReqZero : SearchRequestM := ⟨[97], [], 1, 0⟩

def c7ReqTen : SearchRequestM := ⟨[97], [], 1, 10⟩

/-- A one-article index whose content "ttİİa" contains U+0130, the
character whose lowercase "i̇" is LONGER in bytes (2 bytes become 3); the
article has no heading_index entries, so a search builds the synthetic
root paragraph over the whole content. -/
def c7TurkishIdx : SearchIndexM :=
  ⟨[⟨[120], [116], [116, 116, 304, 304, 97], [], [], []⟩], [], [], [], [], []⟩

/-- C7: perform_search panics on well-formed requests, against the claim
(and the spec's "never panic out to the host") — the evaluations are none,
the model of a panic.  First: page_size = 0 (accepted by the parser)
reaches the total_pages division by zero.  Second: with page_size = 10 and
page = 1, the query "a" tier-7-matches the article whose content is
"ttİİa"; in find_matches_in_paragraph the paragraph "İİa" (5 bytes)
lowercases to "i̇i̇a" (7 bytes), the match of "a" at lowercased offset 6
with end 7 is snapped AGAINST THE 5-BYTE ORIGINAL to 5..5 and discarded,
start_idx becomes 5 — not a character boundary of the 7-byte lowercased
paragraph — and the next pass's content_lower[start_idx..] slice panics. -/
theorem c7_panics_eval :
    performSearch c7Idx c7ReqZero = none ∧
    performSearch c7TurkishIdx c7ReqTen = none :=
  ⟨rfl, rfl⟩

/-- C8 witness: the round-trip theorem instantiated with a singleton-list
serializer and the identity compressor at payload 7, version 3.0,
loader maximum 3. -/
theorem c8_witness :
    fromCompressedWithMaxVersion (fun l => l.head?) (fun l => some l)
      (toCompressed (fun n : Nat => [n]) (fun l => l) 7 (3, 0)) 3 = some 7 :=
  c8_codec_roundtrip (fun n : Nat => [n]) (fun l => l.head?) (fun l => l)
    (fun l => some l) 7 (3, 0) 3 rfl rfl (by decide) (by decide)

end SiteSearch

